import Mathlib

/-!
# Genome-Analyzer: the fragment trie and the genome matcher

A shallow embedding of `src/Trie.h`, `src/Genome.cpp` and `src/GenomeMatcher.cpp`.

* `std::string` is `List Char` (`Str`); `std::vector<T>` is `List T`.
* A `Trie<V>::Node` is the nested inductive `Node V`; the pointer test
  `current != root` of `findNodes` becomes a Boolean `atRoot` that is true only
  for the outermost call.
* `std::unordered_map` is an association list; its iteration order is not
  specified in C++, so statements about it speak of membership only.
* `double` percentages are exact rationals.
-/

namespace GenomeAnalyzer

/-- A `std::string`. -/
abbrev Str := List Char

/-! ## Trie.h -/

/-- The `Node` struct of `Trie<ValueType>`: a label, the values stored at the node,
and the children in `push_back` order. -/
inductive Node (V : Type) where
  | mk (label : Char) (values : List V) (children : List (Node V)) : Node V

namespace Node

variable {V : Type}

/-- Field `label`. -/
def label : Node V → Char
  | mk l _ _ => l

/-- Field `values`. -/
def values : Node V → List V
  | mk _ vs _ => vs

/-- Field `children`. -/
def children : Node V → List (Node V)
  | mk _ _ cs => cs

/-- What `new Node()` yields: a zero label and two empty vectors. -/
def fresh : Node V := mk (Char.ofNat 0) [] []

end Node

/-- A `Trie<ValueType>`: the root node. -/
structure Trie (V : Type) where
  root : Node V

namespace Trie

variable {V : Type}

/-- The constructor `Trie()`, also the state after `reset()`. -/
def empty : Trie V := ⟨Node.fresh⟩

/-- Member `reset()`: every node is freed and a new root is allocated. -/
def reset (_t : Trie V) : Trie V := empty

/-- One round of the outer loop of `insert` at a node with children `cs`: the inner
loop scans the children for the first one labelled `c` and descends into it (`g` is the
rest of the insertion); when none is found a new node labelled `c` is pushed at the back
and the insertion continues there. -/
def insertChild (c : Char) (g : Node V → Node V) : List (Node V) → List (Node V)
  | [] => [g (Node.mk c [] [])]
  | n :: ns => if n.label = c then g n :: ns else n :: insertChild c g ns

/-- The body of `insert`, from the node `curr`: walk down `key`, then push `value` on
the values of the node reached. -/
def insertNode : Str → V → Node V → Node V
  | [], value, Node.mk l vs cs => Node.mk l (vs ++ [value]) cs
  | c :: key, value, Node.mk l vs cs => Node.mk l vs (insertChild c (insertNode key value) cs)

/-- Member `insert(key, value)`. -/
def insert (t : Trie V) (key : Str) (value : V) : Trie V :=
  ⟨insertNode key value t.root⟩

/-- Member `findNodes(key, exactMatchOnly, current, result)`; the returned list is what
the call appends to `result`. `atRoot` stands for `current == root`. -/
def findNodes : Str → Bool → Bool → Node V → List V
  | [], _, _, current => current.values
  | c :: key, exactMatchOnly, atRoot, current =>
      current.children.flatMap fun child =>
        if c = child.label then findNodes key exactMatchOnly false child
        else if !exactMatchOnly && !atRoot then findNodes key true false child
        else []

/-- Member `find(key, exactMatchOnly)`. -/
def find (t : Trie V) (key : Str) (exactMatchOnly : Bool) : List V :=
  findNodes key exactMatchOnly true t.root

end Trie

namespace Node

variable {V : Type}

/-- The label invariant of the data model: below this node no two children of a node
share a label. -/
inductive WF : Node V → Prop
  | mk (l : Char) (vs : List V) (cs : List (Node V)) :
      (cs.map Node.label).Nodup → (∀ c ∈ cs, WF c) → WF (Node.mk l vs cs)

end Node

namespace Trie

variable {V : Type}

/-- A sequence of `insert` calls, one per `(key, value)` pair, in list order. -/
def insertAll (ops : List (Str × V)) (t : Trie V) : Trie V :=
  ops.foldl (fun t p => t.insert p.1 p.2) t

/-- The number of positions at which two strings differ, up to the shorter length. -/
def mismatches : Str → Str → Nat
  | a :: as, b :: bs => (if a = b then 0 else 1) + mismatches as bs
  | _, _ => 0

/-- The keys an approximate lookup of `key` is meant to reach: the same length, the same
first character, and at most one differing position. -/
def oneOff (key k : Str) : Bool :=
  decide (k.length = key.length) && decide (k.head? = key.head?) &&
    decide (mismatches key k ≤ 1)

/-- Whether the descent of `findNodes key exactMatchOnly` from a node (the root when
`atRoot`) follows the path that spells `k` to its end. -/
def reach : Bool → Bool → Str → Str → Bool
  | _, _, [], [] => true
  | _, _, [], _ :: _ => false
  | _, _, _ :: _, [] => false
  | exactMatchOnly, atRoot, c :: key, d :: k =>
      if c = d then reach exactMatchOnly false key k
      else if !exactMatchOnly && !atRoot then reach true false key k
      else false

/-- The recursive descent as the specification words it: for every child, descend with
the same flag when the label is `k[0]`, and additionally, when no mismatch is used and
the node is not the root, descend with the flag set whatever the label is. -/
def specDescent : Str → Bool → Bool → Node V → List V
  | [], _, _, current => current.values
  | c :: k, usedMismatch, atRoot, current =>
      current.children.flatMap fun child =>
        (if child.label = c then specDescent k usedMismatch false child else []) ++
        (if !usedMismatch && !atRoot then specDescent k true false child else [])

/-- The descent of the specification with its second branch taken only for a child
whose label is not `k[0]`. -/
def specDescentElse : Str → Bool → Bool → Node V → List V
  | [], _, _, current => current.values
  | c :: k, usedMismatch, atRoot, current =>
      current.children.flatMap fun child =>
        (if child.label = c then specDescentElse k usedMismatch false child else []) ++
        (if child.label ≠ c ∧ usedMismatch = false ∧ atRoot = false then
          specDescentElse k true false child else [])

end Trie

/-! ## Genome.cpp -/

/-- The largest `int`, `INT_MAX`. -/
def intMax : Int := 2147483647

/-- A `Genome` (`GenomeImpl`): the name `m_name` and the sequence `genome`. The member
`length()` returns `(int)genome.size()`, so the sequence has at most `INT_MAX` symbols. -/
structure Genome where
  name : Str
  genome : Str
  bounded : (genome.length : Int) ≤ intMax
deriving DecidableEq

namespace Genome

/-- Member `length()`. -/
def length (g : Genome) : Nat := g.genome.length

/-- The loop of `extract`: `i` is the loop variable, `n` the number of rounds left and
`loc` the string `local` built so far; `none` is the early `return false`. -/
def extractLoop (genome : Str) : Nat → Nat → Str → Option Str
  | _, 0, loc => some loc
  | i, n + 1, loc =>
      match genome[i]? with
      | none => none
      | some c => extractLoop genome (i + 1) n (loc ++ [c])

/-- The number of rounds of the loop `for (i = position; i < position + length; i++)` of
`extract`, for a `position` that is not negative. The bound `position + length` is a sum
of two `int`s: above `INT_MAX` it wraps to a negative number and the loop runs zero
times, as it does for a `length` that is not positive. -/
def extractRounds (position : Nat) (length : Int) : Nat :=
  if (position : Int) + length > intMax then 0 else length.toNat

/-- Member `extract(position, length, fragment)`: the returned pair is the Boolean result
and the value of the out-parameter `fragment` after the call (unchanged on failure). -/
def extract (g : Genome) (position : Nat) (length : Int) (fragment : Str) : Bool × Str :=
  match extractLoop g.genome position (extractRounds position length) [] with
  | some loc => (true, loc)
  | none => (false, fragment)

end Genome

/-! ## GenomeMatcher.cpp -/

/-- Modelled from the spec: `provided.h` is not among the sources; a `DNAMatch`
(the FragmentHit of the data model) has a genome name, a length and a position. The two
`int` fields never hold a negative value and are natural numbers here. -/
structure DNAMatch where
  genomeName : Str
  length : Nat
  position : Nat
deriving DecidableEq, Repr

/-- Modelled from the spec: `provided.h` is not among the sources; a `GenomeMatch`
(the RelatedGenome of the data model) has a genome name and a percentage, a `double`
in the source and an exact rational here. -/
structure GenomeMatch where
  genomeName : Str
  percentMatch : ℚ
deriving DecidableEq

/-- The operations of `std::unordered_map<std::string, T>` that the matcher uses, on an
association list with at most one entry per key. -/
abbrev UMap (T : Type) := List (Str × T)

namespace UMap

variable {T : Type}

/-- The value `m[key]` of a key that `m.find(key)` locates, `none` for `m.end()`. -/
def find (m : UMap T) (key : Str) : Option T := m.lookup key

/-- Member `erase(key)`. -/
def erase (m : UMap T) (key : Str) : UMap T := m.filter fun p => p.1 ≠ key

/-- Member `insert(pair)`: no effect when the key is present. -/
def insert (m : UMap T) (key : Str) (value : T) : UMap T :=
  if (m.find key).isSome then m else m ++ [(key, value)]

/-- The statement `m[key]++` at a key that is present. -/
def increment (m : UMap Nat) (key : Str) : UMap Nat :=
  m.map fun p => if p.1 = key then (p.1, p.2 + 1) else p

end UMap

/-- The state of a `GenomeMatcherImpl`. -/
structure GenomeMatcherImpl where
  minSearchLen : Int
  genomes : Trie Genome
  trie : Trie DNAMatch

namespace GenomeMatcherImpl

/-- The constructor `GenomeMatcherImpl(minSearchLength)`. -/
def create (minSearchLength : Int) : GenomeMatcherImpl :=
  ⟨minSearchLength, Trie.empty, Trie.empty⟩

/-- Member `minimumSearchLength()`. -/
def minimumSearchLength (m : GenomeMatcherImpl) : Int := m.minSearchLen

/-- Member `addGenome(genome)`: the genome is stored under its name, then the loop
`for (i = 0; i <= genome.length() - minSearchLen; i++)` inserts the window at `i`. -/
def addGenome (m : GenomeMatcherImpl) (genome : Genome) : GenomeMatcherImpl :=
  { minSearchLen := m.minSearchLen
    genomes := m.genomes.insert genome.name genome
    trie := (List.range ((genome.length : Int) - m.minSearchLen + 1).toNat).foldl
      (fun t i =>
        t.insert (genome.extract i m.minSearchLen []).2
          { genomeName := genome.name, length := genome.length, position := i })
      m.trie }

/-- The character `comp[j]`. Inside the string it is the stored character and at
`j = comp.size()` it is the terminator; a larger `j` reads memory that the string does
not own, whose content is the parameter `junk`. -/
def charAt (junk : Nat → Char) (comp : Str) (j : Nat) : Char :=
  match comp[j]? with
  | some c => c
  | none => if j = comp.length then Char.ofNat 0 else junk j

/-- The inner loop of `findGenomesWithThisDNA` over `j`: the first argument is what is
left of `fragment` from index `j` on; the state is `len`, `snip` and `push`, and the
result is `(len, push)` when the loop ends or breaks. -/
def compareLoop (junk : Nat → Char) (exactMatchOnly : Bool) (minimumLength : Int)
    (comp : Str) : Str → Nat → Nat → Bool → Bool → Nat × Bool
  | [], _, len, _, push => (len, push)
  | c :: rest, j, len, snip, push =>
      if c = charAt junk comp j then
        compareLoop junk exactMatchOnly minimumLength comp rest (j + 1) (len + 1) snip
          (if (j : Int) = minimumLength - 1 then true else push)
      else if !snip && !exactMatchOnly then
        compareLoop junk exactMatchOnly minimumLength comp rest (j + 1) (len + 1) true
          (if (j : Int) = minimumLength - 1 then true else push)
      else (len, push)

/-- The string `comp` and the pair `(len, push)` that the outer loop computes for one
candidate against the genome `currentGenome`: `extract` leaves `comp` empty when it
fails, and its result is not looked at. -/
def confirm (junk : Nat → Char) (fragment : Str) (minimumLength : Int)
    (exactMatchOnly : Bool) (currentGenome : Genome) (pos : Nat) : Nat × Bool :=
  compareLoop junk exactMatchOnly minimumLength
    (currentGenome.extract pos fragment.length []).2 fragment 0 0 false false

/-- The end of a round of the outer loop of `findGenomesWithThisDNA`, from the line
`trieSearch[i].length = len` on: `r` is the pair `(len, push)` of the candidate `cand`. -/
def recordStep (r : Nat × Bool) (recorder : UMap DNAMatch) (cand : DNAMatch) :
    UMap DNAMatch :=
  let hit : DNAMatch := { cand with length := r.1 }
  match recorder.find hit.genomeName with
  | some old =>
      if hit.length > old.length ∨
          (hit.length = old.length ∧ hit.position < old.position) then
        if r.2 then (recorder.erase hit.genomeName).insert hit.genomeName hit
        else recorder.erase hit.genomeName
      else recorder
  | none =>
      if r.2 then recorder.insert hit.genomeName hit else recorder

/-- One round of the outer loop of `findGenomesWithThisDNA` for the candidate `cand`,
on the map `recorder`. `none` is the out-of-range `[0]` on an empty lookup result. -/
def matchStep (m : GenomeMatcherImpl) (junk : Nat → Char) (fragment : Str)
    (minimumLength : Int) (exactMatchOnly : Bool)
    (recorder : UMap DNAMatch) (cand : DNAMatch) : Option (UMap DNAMatch) :=
  match (m.genomes.find cand.genomeName true).head? with
  | none => none
  | some currentGenome =>
      some (recordStep
        (confirm junk fragment minimumLength exactMatchOnly currentGenome cand.position)
        recorder cand)

/-- Member `findGenomesWithThisDNA(fragment, minimumLength, exactMatchOnly, matches)`:
the Boolean result and the content of `matches` after the call. The comparison
`fragment.length() < minimumLength` is unsigned, so a negative `minimumLength` fails it;
`substr(0, n)` with a negative `n` takes the whole string. The string `comp` is local to
a round of the outer loop, so what lies past its terminator may differ from round to
round: `junk i` is that content in round `i`. -/
def findGenomesWithThisDNA (m : GenomeMatcherImpl) (junk : Nat → Nat → Char)
    (fragment : Str) (minimumLength : Int) (exactMatchOnly : Bool) :
    Option (Bool × List DNAMatch) :=
  if minimumLength < 0 ∨ (fragment.length : Int) < minimumLength then some (false, [])
  else if minimumLength < m.minimumSearchLength then some (false, [])
  else
    let key := if m.minimumSearchLength < 0 then fragment
      else fragment.take m.minimumSearchLength.toNat
    match (m.trie.find key exactMatchOnly).enum.foldlM
        (fun recorder ic =>
          matchStep m (junk ic.1) fragment minimumLength exactMatchOnly recorder ic.2)
        [] with
    | none => none
    | some recorder =>
        let result := recorder.map fun p => p.2
        some (!result.isEmpty, result)

/-- The inner loop of `findRelatedGenomes` over the matches of one fragment. -/
def countMatches (recorder : UMap Nat) (found : List DNAMatch) : UMap Nat :=
  found.foldl (fun r d => (r.insert d.genomeName 0).increment d.genomeName) recorder

/-- The query fragment number `i` of `findRelatedGenomes`. -/
def querySequence (query : Genome) (fragmentMatchLength : Int) (i : Nat) : Str :=
  (query.extract ((i : Int) * fragmentMatchLength).toNat fragmentMatchLength []).2

/-- One round of the first loop of `findRelatedGenomes`; `junk i` is the content past
the terminators of the lookup of fragment `i`. -/
def relatedStep (m : GenomeMatcherImpl) (junk : Nat → Nat → Nat → Char) (query : Genome)
    (fragmentMatchLength : Int) (exactMatchOnly : Bool)
    (recorder : UMap Nat) (i : Nat) : Option (UMap Nat) :=
  match findGenomesWithThisDNA m (junk i) (querySequence query fragmentMatchLength i)
      fragmentMatchLength exactMatchOnly with
  | none => none
  | some r => some (countMatches recorder r.2)

/-- The static member `compare(a, b)`. -/
def compare (a b : GenomeMatch) : Bool :=
  if a.percentMatch = b.percentMatch then
    if a.genomeName > b.genomeName then false else true
  else decide (a.percentMatch > b.percentMatch)

/-- The second loop of `findRelatedGenomes`: the entries that meet the threshold. -/
def keepRelated (numQueries : Int) (matchPercentThreshold : ℚ) (recorder : UMap Nat) :
    List GenomeMatch :=
  recorder.filterMap fun p =>
    let percentage : ℚ := (p.2 : ℚ) / (numQueries : ℚ) * 100
    if percentage ≥ matchPercentThreshold then
      some { genomeName := p.1, percentMatch := percentage }
    else none

/-- Member `findRelatedGenomes(query, fragmentMatchLength, exactMatchOnly,
matchPercentThreshold, results)`: the Boolean result and the content of `results` after
the call. `none` is the integer division by zero, or an undefined inner call.
`std::sort` with `compare` is an insertion sort by `compare`. -/
def findRelatedGenomes (m : GenomeMatcherImpl) (junk : Nat → Nat → Nat → Char)
    (query : Genome) (fragmentMatchLength : Int) (exactMatchOnly : Bool) (matchPercentThreshold : ℚ) :
    Option (Bool × List GenomeMatch) :=
  if fragmentMatchLength < m.minimumSearchLength then some (false, [])
  else if fragmentMatchLength = 0 then none
  else
    let numQueries : Int := Int.tdiv (query.length : Int) fragmentMatchLength
    match (List.range numQueries.toNat).foldlM
        (relatedStep m junk query fragmentMatchLength exactMatchOnly) [] with
    | none => none
    | some recorder =>
        let results := (keepRelated numQueries matchPercentThreshold recorder).insertionSort
          (fun a b => compare a b = true)
        some (!results.isEmpty, results)

/-- The index after `addGenome` on each genome of `gs` in turn, from a new matcher. -/
def build (minSearchLength : Int) (gs : List Genome) : GenomeMatcherImpl :=
  gs.foldl addGenome (create minSearchLength)

/-- The `(key, value)` pairs that `addGenome(g)` inserts in the fragment trie, in
order. -/
def windows (minSearchLength : Int) (g : Genome) : List (Str × DNAMatch) :=
  (List.range ((g.length : Int) - minSearchLength + 1).toNat).map fun i =>
    ((g.genome.drop i).take minSearchLength.toNat,
      { genomeName := g.name, length := g.length, position := i })

/-- The candidates of a call of `findGenomesWithThisDNA` and the pair `(len, push)` of
a candidate: the lookup result for the first `minSearchLength` characters of the
fragment, and the comparison against the first stored genome of the candidate's name. -/
def candidates (m : GenomeMatcherImpl) (fragment : Str) (exactMatchOnly : Bool) :
    List DNAMatch :=
  m.trie.find (fragment.take m.minimumSearchLength.toNat) exactMatchOnly

/-- The pair `(len, push)` of the candidate `ic.2` in round `ic.1` of the outer loop,
`(0, false)` when no genome of its name is stored. -/
def scoreOf (m : GenomeMatcherImpl) (junk : Nat → Nat → Char) (fragment : Str)
    (minimumLength : Int) (exactMatchOnly : Bool) (ic : Nat × DNAMatch) : Nat × Bool :=
  match (m.genomes.find ic.2.genomeName true).head? with
  | none => (0, false)
  | some g => confirm (junk ic.1) fragment minimumLength exactMatchOnly g ic.2.position

/-- The content of `matches` after the outer loop of `findGenomesWithThisDNA` when
every candidate names a stored genome. -/
def bestHits (m : GenomeMatcherImpl) (junk : Nat → Nat → Char) (fragment : Str)
    (minimumLength : Int) (exactMatchOnly : Bool) : List DNAMatch :=
  ((candidates m fragment exactMatchOnly).enum.foldl
    (fun r ic =>
      recordStep (scoreOf m junk fragment minimumLength exactMatchOnly ic) r ic.2)
    []).map Prod.snd

/-- The number of indices `i < numFragments` for which the lookup of the slice
`query[i*L .. (i+1)*L)` returns a hit named `name`. -/
def hitCount (m : GenomeMatcherImpl) (junk : Nat → Nat → Nat → Char) (query : Genome)
    (L : Nat) (exactMatchOnly : Bool) (name : Str) : Nat :=
  (List.range (query.length / L)).countP fun i =>
    match findGenomesWithThisDNA m (junk i) ((query.genome.drop (i * L)).take L) L
        exactMatchOnly with
    | some r => r.2.any fun d => d.genomeName = name
    | none => false

/-- The state of the map `recorder` after the rounds `done` (round number and
candidate), whose pairs `(len, push)` are given by `sc`: keys are distinct, every entry
is a qualifying candidate with its confirmed length, and every qualifying candidate is
matched or beaten by the entry of its genome. -/
def RecInv (sc : Nat × DNAMatch → Nat × Bool) (done : List (Nat × DNAMatch))
    (recorder : UMap DNAMatch) : Prop :=
  (recorder.map Prod.fst).Nodup ∧
  (∀ p ∈ recorder, p.1 = p.2.genomeName ∧ ∃ c ∈ done, c.2.genomeName = p.2.genomeName ∧
      c.2.position = p.2.position ∧ p.2.length = (sc c).1 ∧ (sc c).2 = true) ∧
  (∀ c ∈ done, (sc c).2 = true → ∃ p ∈ recorder, p.1 = c.2.genomeName ∧
      ((sc c).1 < p.2.length ∨ ((sc c).1 = p.2.length ∧ p.2.position ≤ c.2.position)))

/-- The state of the hit counters of `findRelatedGenomes` after the genome names `ns`
were counted, one at a time: keys are distinct, and a name has an entry exactly when it
occurs in `ns`, with its number of occurrences. -/
def CountInv (ns : List Str) (recorder : UMap Nat) : Prop :=
  (recorder.map Prod.fst).Nodup ∧
  ∀ (name : Str) (c : Nat), (name, c) ∈ recorder ↔ (c = ns.count name ∧ 1 ≤ c)

/-- The genome names that the lookup of query fragment `i` returns. -/
def namesOf (m : GenomeMatcherImpl) (junk : Nat → Nat → Nat → Char) (query : Genome)
    (fragmentMatchLength : Int) (exactMatchOnly : Bool) (i : Nat) : List Str :=
  match findGenomesWithThisDNA m (junk i) (querySequence query fragmentMatchLength i)
      fragmentMatchLength exactMatchOnly with
  | some r => r.2.map DNAMatch.genomeName
  | none => []

end GenomeMatcherImpl

namespace Trie

variable {V : Type}

/-- A call on a trie: `insert(key, value)` or `reset()`. -/
inductive TrieOp (V : Type) where
  | insert (key : Str) (value : V) : TrieOp V
  | reset : TrieOp V

/-- The trie after one call. -/
def applyOp (t : Trie V) : TrieOp V → Trie V
  | TrieOp.insert key value => t.insert key value
  | TrieOp.reset => t.reset

/-- The trie after a sequence of calls, in list order. -/
def applyOps (ops : List (TrieOp V)) (t : Trie V) : Trie V :=
  ops.foldl applyOp t

end Trie

namespace GenomeMatcherImpl

/-- The key `fragment.substr(0, minimumSearchLength())` that `findGenomesWithThisDNA`
looks up in the fragment trie. -/
def searchKey (m : GenomeMatcherImpl) (fragment : Str) : Str :=
  if m.minimumSearchLength < 0 then fragment
  else fragment.take m.minimumSearchLength.toNat

/-- The content of `matches` after the outer loop of `findGenomesWithThisDNA` over the
candidate list `cands`, when every candidate names a stored genome. -/
def hitsOver (m : GenomeMatcherImpl) (junk : Nat → Nat → Char) (fragment : Str)
    (minimumLength : Int) (exactMatchOnly : Bool) (cands : List DNAMatch) : List DNAMatch :=
  (cands.enum.foldl
    (fun r ic =>
      recordStep (scoreOf m junk fragment minimumLength exactMatchOnly ic) r ic.2)
    []).map Prod.snd

end GenomeMatcherImpl

/-! ## The scenario of the specification -/

/-- Genome `A = "ACGTACGT"` of the scenarios. -/
def scenarioA : Genome := ⟨"A".toList, "ACGTACGT".toList, by decide⟩

/-- Genome `B = "ACGTTCGT"` of the scenarios. -/
def scenarioB : Genome := ⟨"B".toList, "ACGTTCGT".toList, by decide⟩

/-- The fragment `"ACGT"` of the scenarios. -/
def scenarioExact : Str := "ACGT".toList

/-- The fragment `"ACTT"` of the scenarios, one substitution away from `"ACGT"`. -/
def scenarioApprox : Str := "ACTT".toList

/-- A genome named `G` with the one-symbol sequence `"A"`. -/
def shortGenome : Genome := ⟨"G".toList, "A".toList, by decide⟩

/-- A genome named `G` with the sequence `"AC"`. -/
def pairGenome : Genome := ⟨"G".toList, "AC".toList, by decide⟩

/-- A content for the memory past the terminator of an empty string, the same in every
round of a lookup. -/
def scenarioJunk : Nat → Nat → Char := fun _ _ => 'Z'

/-- The content `scenarioJunk` for the lookup of every query fragment. -/
def scenarioJunks : Nat → Nat → Nat → Char := fun _ => scenarioJunk

/-- A genome named `G2` with the one-symbol sequence `"A"`. -/
def staleShort : Genome := ⟨"G2".toList, "A".toList, by decide⟩

/-- A genome named `G1` with the sequence `"ACG"`. -/
def staleLong : Genome := ⟨"G1".toList, "ACG".toList, by decide⟩

/-- What lies past the terminator of the empty `comp` when the candidates are those of
`"ACG"` in the index of `staleShort` and `staleLong`: in round 2 the bytes `C`, `G` that
the `comp` of round 1 (`"ACG"`) left at positions 1 and 2, and bytes that match nothing
in the rounds that follow no such `comp`. -/
def staleJunk : Nat → Nat → Char := fun i j =>
  if i = 2 ∧ j = 1 then 'C' else if i = 2 ∧ j = 2 then 'G' else 'Z'

namespace Trie

variable {V : Type}

theorem label_insertNode (key : Str) (v : V) (n : Node V) :
    (insertNode key v n).label = n.label := by
  cases key <;> cases n <;> rfl

theorem findNodes_leaf (key : Str) (e r : Bool) (c : Char) :
    findNodes key e r (Node.mk c ([] : List V) []) = [] := by
  cases key <;> simp [findNodes, Node.values, Node.children]

theorem flatMap_insertChild_perm (F : Node V → List V) (g : Node V → Node V) (c : Char)
    (X : List V) (hnew : (F (g (Node.mk c [] []))).Perm X)
    (hold : ∀ n : Node V, n.label = c → (F (g n)).Perm (F n ++ X)) (cs : List (Node V)) :
    ((insertChild c g cs).flatMap F).Perm (cs.flatMap F ++ X) := by
  induction cs with
  | nil => simpa [insertChild] using hnew
  | cons n ns ih =>
    by_cases h : n.label = c
    · simp only [insertChild, h, if_true, List.flatMap_cons]
      have h1 := (hold n h).append_right (ns.flatMap F)
      refine h1.trans ?_
      simp only [List.append_assoc]
      exact List.Perm.append_left _ List.perm_append_comm
    · simp only [insertChild, h, if_false, List.flatMap_cons, List.append_assoc]
      exact List.Perm.append_left _ ih

/-- Inserting `(k, v)` adds `v` to the result of a lookup exactly when the descent
reaches the node of `k`; nothing else changes, up to order. -/
theorem findNodes_insertNode_perm (k : Str) (v : V) :
    ∀ (key : Str) (e r : Bool) (n : Node V),
      (findNodes key e r (insertNode k v n)).Perm
        (findNodes key e r n ++ if reach e r key k then [v] else []) := by
  induction k with
  | nil =>
    intro key e r n
    cases n with
    | mk l vs cs =>
      cases key with
      | nil => simp [insertNode, findNodes, reach, Node.values]
      | cons c key => simp [insertNode, findNodes, reach, Node.children]
  | cons d k ih =>
    intro key e r n
    cases n with
    | mk l vs cs =>
      cases key with
      | nil => simp [insertNode, findNodes, reach, Node.values]
      | cons c key =>
        simp only [insertNode, findNodes, Node.children]
        apply flatMap_insertChild_perm
        · rw [label_insertNode]
          simp only [Node.label, reach]
          by_cases hc : c = d
          · simp only [hc, if_true]
            simpa [findNodes_leaf] using ih key e false (Node.mk d [] [])
          · simp only [hc, if_false]
            by_cases hb : (!e && !r) = true
            · simp only [hb, if_true]
              simpa [findNodes_leaf] using ih key true false (Node.mk d [] [])
            · simp [hb]
        · intro n hn
          rw [label_insertNode, hn]
          simp only [reach]
          by_cases hc : c = d
          · simp only [hc, if_true]
            exact ih key e false n
          · simp only [hc, if_false]
            by_cases hb : (!e && !r) = true
            · simp only [hb, if_true]
              exact ih key true false n
            · simp [hb]

theorem reach_exact (r : Bool) (key k : Str) : reach true r key k = decide (key = k) := by
  induction key generalizing r k with
  | nil => cases k <;> simp [reach]
  | cons c key ih =>
    cases k with
    | nil => simp [reach]
    | cons d k =>
      by_cases hc : c = d
      · simp [reach, hc, ih]
      · simp [reach, hc]

theorem reach_spent (key k : Str) :
    reach false false key k = (decide (k.length = key.length) && decide (mismatches key k ≤ 1)) := by
  induction key generalizing k with
  | nil => cases k <;> simp [reach, mismatches]
  | cons c key ih =>
    cases k with
    | nil => simp [reach]
    | cons d k =>
      by_cases hc : c = d
      · simp [reach, hc, ih, mismatches]
      · simp only [reach, hc, if_false, Bool.not_false, Bool.and_self, if_true, reach_exact,
          mismatches, List.length_cons]
        rw [Bool.eq_iff_iff]
        simp only [decide_eq_true_eq, Bool.and_eq_true, Nat.add_right_cancel_iff]
        constructor
        · rintro rfl
          have : ∀ l : Str, mismatches l l = 0 := by
            intro l; induction l with
            | nil => rfl
            | cons a l ih => simp [mismatches, ih]
          simp [this]
        · rintro ⟨hl, hm⟩
          have h0 : mismatches key k = 0 := by omega
          clear hm ih
          induction key generalizing k with
          | nil => cases k <;> simp_all
          | cons a key ih =>
            cases k with
            | nil => simp at hl
            | cons b k =>
              simp only [mismatches] at h0
              by_cases hab : a = b
              · simp only [hab, if_true, Nat.zero_add] at h0
                simp only [List.length_cons, Nat.add_right_cancel_iff] at hl
                rw [hab, ih k hl h0]
              · simp [hab] at h0

theorem reach_root (key k : Str) : reach false true key k = oneOff key k := by
  cases key with
  | nil => cases k <;> simp [reach, oneOff, mismatches]
  | cons c key =>
    cases k with
    | nil => simp [reach, oneOff]
    | cons d k =>
      by_cases hc : c = d
      · simp [reach, hc, reach_spent, oneOff, mismatches]
      · have hd : ¬ d = c := fun h => hc h.symm
        simp [reach, hc, hd, oneOff]

theorem find_empty (key : Str) (e : Bool) : (empty : Trie V).find key e = [] := by
  cases key <;> simp [find, empty, Node.fresh, findNodes, Node.values, Node.children]

theorem find_insert_perm (t : Trie V) (k : Str) (v : V) (key : Str) (e : Bool) :
    ((t.insert k v).find key e).Perm (t.find key e ++ if reach e true key k then [v] else []) :=
  findNodes_insertNode_perm k v key e true t.root

theorem find_insertAll_perm (ops : List (Str × V)) (t : Trie V) (key : Str) (e : Bool) :
    ((insertAll ops t).find key e).Perm
      (t.find key e ++ (ops.filter fun p => reach e true key p.1).map fun p => p.2) := by
  induction ops generalizing t with
  | nil => simp [insertAll]
  | cons p ops ih =>
    have h1 := ih (t.insert p.1 p.2)
    simp only [insertAll, List.foldl_cons] at h1 ⊢
    refine h1.trans ?_
    refine ((find_insert_perm t p.1 p.2 key e).append_right _).trans ?_
    by_cases hp : reach e true key p.1 = true
    · simp [List.filter_cons, hp]
    · simp [List.filter_cons, hp]

theorem map_label_insertChild (c : Char) (g : Node V → Node V)
    (hg : ∀ n, (g n).label = n.label) (cs : List (Node V)) :
    (insertChild c g cs).map Node.label =
      if c ∈ cs.map Node.label then cs.map Node.label else cs.map Node.label ++ [c] := by
  induction cs with
  | nil =>
    have := hg (Node.mk c [] [])
    simpa [insertChild] using this
  | cons n ns ih =>
    by_cases h : n.label = c
    · simp [insertChild, h, hg]
    · have h2 : ¬ c = n.label := fun e => h e.symm
      by_cases hm : c ∈ ns.map Node.label
      · rw [if_pos hm] at ih
        simp only [List.map_cons, List.mem_cons, hm, or_true, if_true]
        simp [insertChild, h, ih]
      · rw [if_neg hm] at ih
        have hm2 : ¬ (c ∈ (n :: ns).map Node.label) := by
          simpa [h2] using hm
        rw [if_neg hm2]
        simp [insertChild, h, ih]

theorem mem_insertChild (c : Char) (g : Node V → Node V) (cs : List (Node V)) (x : Node V)
    (hx : x ∈ insertChild c g cs) : x ∈ cs ∨ x = g (Node.mk c [] []) ∨ ∃ n ∈ cs, x = g n := by
  induction cs with
  | nil => simp [insertChild] at hx; simp [hx]
  | cons n ns ih =>
    by_cases h : n.label = c
    · simp only [insertChild, h, if_true, List.mem_cons] at hx
      rcases hx with rfl | hx
      · exact Or.inr (Or.inr ⟨n, by simp, rfl⟩)
      · exact Or.inl (by simp [hx])
    · simp only [insertChild, h, if_false, List.mem_cons] at hx
      rcases hx with rfl | hx
      · exact Or.inl (by simp)
      · rcases ih hx with h1 | h1 | ⟨m, hm, rfl⟩
        · exact Or.inl (by simp [h1])
        · exact Or.inr (Or.inl h1)
        · exact Or.inr (Or.inr ⟨m, by simp [hm], rfl⟩)

/-- The member `insert` keeps the label invariant. -/
theorem wf_insertNode (key : Str) (v : V) : ∀ n : Node V, n.WF → (insertNode key v n).WF := by
  induction key with
  | nil =>
    intro n hn
    cases hn with
    | mk l vs cs h1 h2 => exact Node.WF.mk _ _ _ h1 h2
  | cons c key ih =>
    intro n hn
    cases hn with
    | mk l vs cs h1 h2 =>
      refine Node.WF.mk _ _ _ ?_ ?_
      · rw [map_label_insertChild c _ (label_insertNode key v)]
        split
        · exact h1
        · rename_i hc
          exact List.Nodup.append h1 (List.nodup_singleton c) (by simpa using hc)
      · intro x hx
        rcases mem_insertChild c _ cs x hx with h | rfl | ⟨m, hm, rfl⟩
        · exact h2 x h
        · exact ih _ (Node.WF.mk _ _ _ (by simp) (by simp))
        · exact ih _ (h2 m hm)

theorem wf_empty : (empty : Trie V).root.WF :=
  Node.WF.mk _ _ _ (by simp) (by simp)

theorem wf_insertAll (ops : List (Str × V)) (t : Trie V) (ht : t.root.WF) :
    (insertAll ops t).root.WF := by
  induction ops generalizing t with
  | nil => exact ht
  | cons p ops ih => exact ih _ (wf_insertNode p.1 p.2 _ ht)

theorem flatMap_insertChild_other (F : Node V → List V) (g : Node V → Node V) (c : Char)
    (hnew : F (g (Node.mk c [] [])) = [])
    (hold : ∀ n : Node V, n.label = c → F (g n) = F n) (cs : List (Node V)) :
    (insertChild c g cs).flatMap F = cs.flatMap F := by
  induction cs with
  | nil => simp [insertChild, hnew]
  | cons n ns ih =>
    by_cases h : n.label = c
    · simp [insertChild, h, hold n h]
    · simp [insertChild, h, ih]

theorem flatMap_insertChild_same (F : Node V → List V) (g : Node V → Node V) (c : Char)
    (X : List V) (hnew : F (g (Node.mk c [] [])) = X) (cs : List (Node V))
    (hnd : (cs.map Node.label).Nodup)
    (hold : ∀ n ∈ cs, n.label = c → F (g n) = F n ++ X)
    (hoff : ∀ n ∈ cs, n.label ≠ c → F n = []) :
    (insertChild c g cs).flatMap F = cs.flatMap F ++ X := by
  induction cs with
  | nil => simp [insertChild, hnew]
  | cons n ns ih =>
    simp only [List.map_cons, List.nodup_cons] at hnd
    by_cases h : n.label = c
    · have hns : ns.flatMap F = [] := by
        rw [List.flatMap_eq_nil_iff]
        intro m hm
        apply hoff m (by simp [hm])
        intro hmc
        exact hnd.1 (by rw [h, ← hmc]; exact List.mem_map_of_mem _ hm)
      simp [insertChild, h, hold n (by simp) h, hns]
    · have := ih hnd.2 (fun m hm => hold m (by simp [hm])) (fun m hm => hoff m (by simp [hm]))
      simp [insertChild, h, this, hoff n (by simp) h]

/-- On a trie with the label invariant, inserting `(k, v)` appends `v` to the exact
lookup of `k` and leaves the exact lookup of every other key as it was. -/
theorem findNodes_insertNode_exact (k : Str) (v : V) :
    ∀ (key : Str) (r : Bool) (n : Node V), n.WF →
      findNodes key true r (insertNode k v n) =
        findNodes key true r n ++ if key = k then [v] else [] := by
  induction k with
  | nil =>
    intro key r n _
    cases n with
    | mk l vs cs =>
      cases key with
      | nil => simp [insertNode, findNodes, Node.values]
      | cons c key => simp [insertNode, findNodes, Node.children]
  | cons d k ih =>
    intro key r n hn
    cases hn with
    | mk l vs cs h1 h2 =>
      cases key with
      | nil => simp [insertNode, findNodes, Node.values]
      | cons c key =>
        simp only [insertNode, findNodes, Node.children, Bool.not_true, Bool.false_and,
          Bool.false_eq_true, if_false]
        by_cases hc : c = d
        · subst hc
          have hleaf : (Node.mk c ([] : List V) []).WF := Node.WF.mk _ _ _ (by simp) (by simp)
          rw [flatMap_insertChild_same _ _ c (if key = k then [v] else []) ?_ cs h1 ?_ ?_]
          · simp
          · rw [label_insertNode]
            simp [Node.label, ih key false _ hleaf, findNodes_leaf]
          · intro n hn hl
            rw [label_insertNode, hl]
            simp [ih key false n (h2 n hn)]
          · intro n _ hl
            have : ¬ c = n.label := fun e => hl e.symm
            simp [this]
        · rw [flatMap_insertChild_other]
          · simp [hc]
          · rw [label_insertNode]; simp [Node.label, hc]
          · intro n hl
            rw [label_insertNode, hl]; simp [hc]

theorem find_insertAll_exact (ops : List (Str × V)) (t : Trie V) (ht : t.root.WF) (key : Str) :
    (insertAll ops t).find key true =
      t.find key true ++ (ops.filter fun p => p.1 = key).map fun p => p.2 := by
  induction ops generalizing t with
  | nil => simp [insertAll]
  | cons p ops ih =>
    have h1 := ih (t.insert p.1 p.2) (wf_insertNode p.1 p.2 _ ht)
    simp only [insertAll, List.foldl_cons] at h1 ⊢
    rw [h1]
    simp only [find, insert]
    rw [findNodes_insertNode_exact p.1 p.2 key true t.root ht]
    by_cases hp : p.1 = key
    · simp [List.filter_cons, hp]
    · have : ¬ key = p.1 := fun e => hp e.symm
      simp [List.filter_cons, hp, this]

theorem specDescentElse_eq (key : Str) :
    ∀ (e r : Bool) (n : Node V), specDescentElse key e r n = findNodes key e r n := by
  induction key with
  | nil => intro e r n; rfl
  | cons c key ih =>
    intro e r n
    simp only [specDescentElse, findNodes]
    congr 1
    funext child
    by_cases hc : c = child.label
    · simp [hc, ih]
    · have : ¬ child.label = c := fun h => hc h.symm
      cases e <;> cases r <;> simp [hc, this, ih]

theorem specDescent_exact (key : Str) :
    ∀ (r : Bool) (n : Node V), specDescent key true r n = findNodes key true r n := by
  induction key with
  | nil => intro r n; rfl
  | cons c key ih =>
    intro r n
    simp only [specDescent, findNodes]
    congr 1
    funext child
    by_cases hc : c = child.label
    · simp [hc, ih]
    · have : ¬ child.label = c := fun h => hc h.symm
      simp [hc, this]

end Trie

/-! ## Genomes and the index -/

namespace Genome

theorem extractLoop_eq (g : Str) : ∀ (n i : Nat) (loc : Str),
    extractLoop g i n loc =
      if n = 0 ∨ i + n ≤ g.length then some (loc ++ (g.drop i).take n) else none := by
  intro n
  induction n with
  | zero => intro i loc; simp [extractLoop]
  | succ n ih =>
    intro i loc
    by_cases hi : i < g.length
    · simp only [extractLoop, List.getElem?_eq_getElem hi, ih]
      by_cases h2 : i + (n + 1) ≤ g.length
      · have : n = 0 ∨ i + 1 + n ≤ g.length := Or.inr (by omega)
        simp only [h2, this, or_true, if_true, List.append_assoc, List.singleton_append]
        rw [List.drop_eq_getElem_cons hi, List.take_succ_cons]
      · have h3 : ¬ (n = 0 ∨ i + 1 + n ≤ g.length) := by omega
        have h4 : ¬ (n + 1 = 0 ∨ i + (n + 1) ≤ g.length) := by omega
        simp only [h3, h4, if_false]
    · have h4 : ¬ (n + 1 = 0 ∨ i + (n + 1) ≤ g.length) := by omega
      simp only [extractLoop, List.getElem?_eq_none (Nat.le_of_not_lt hi), h4, if_false]

theorem extract_snd (g : Genome) (pos n : Nat) :
    (g.extract pos (n : Int) []).2 = if pos + n ≤ g.length then (g.genome.drop pos).take n else [] := by
  have hb := g.bounded
  simp only [intMax] at hb
  simp only [extract, extractRounds, extractLoop_eq, List.nil_append, length, intMax]
  by_cases h : pos + n ≤ g.genome.length
  · have hw : ¬ ((pos : Int) + (n : Int) > 2147483647) := by omega
    rw [if_neg hw, Int.toNat_ofNat, if_pos (Or.inr h), if_pos h]
  · rw [if_neg h]
    by_cases hw : (pos : Int) + (n : Int) > 2147483647
    · rw [if_pos hw]; simp
    · rw [if_neg hw, Int.toNat_ofNat]
      by_cases h0 : n = 0
      · subst h0; simp
      · rw [if_neg (by omega)]

theorem extract_snd_toNat (g : Genome) (pos : Nat) (k : Int) (h : k ≤ 0 ∨ pos + k.toNat ≤ g.length) :
    (g.extract pos k []).2 = (g.genome.drop pos).take k.toNat := by
  have hb := g.bounded
  simp only [intMax] at hb
  simp only [extract, extractRounds, extractLoop_eq, List.nil_append, length, intMax] at h ⊢
  have : k.toNat = 0 ∨ pos + k.toNat ≤ g.genome.length := by
    rcases h with h | h
    · left; omega
    · right; exact h
  by_cases hw : (pos : Int) + k > 2147483647
  · have h0 : k.toNat = 0 := by omega
    rw [if_pos hw, h0]; simp
  · rw [if_neg hw, if_pos this]

end Genome

namespace GenomeMatcherImpl

theorem addGenome_trie (m : GenomeMatcherImpl) (g : Genome) :
    (m.addGenome g).trie = Trie.insertAll (windows m.minSearchLen g) m.trie := by
  simp only [addGenome, windows, Trie.insertAll, List.foldl_map]
  apply List.foldl_ext
  intro t i hi
  rw [Genome.extract_snd_toNat]
  rw [List.mem_range] at hi
  omega

theorem addGenome_genomes (m : GenomeMatcherImpl) (g : Genome) :
    (m.addGenome g).genomes = m.genomes.insert g.name g := rfl

theorem addGenome_minSearchLen (m : GenomeMatcherImpl) (g : Genome) :
    (m.addGenome g).minSearchLen = m.minSearchLen := rfl

theorem build_snoc (k : Int) (gs : List Genome) (g : Genome) :
    build k (gs ++ [g]) = (build k gs).addGenome g := by
  simp [build, List.foldl_append]

theorem build_minSearchLen (k : Int) (gs : List Genome) : (build k gs).minSearchLen = k := by
  induction gs using List.reverseRecOn with
  | nil => rfl
  | append_singleton gs g ih => rw [build_snoc, addGenome_minSearchLen, ih]

theorem build_trie (k : Int) (gs : List Genome) :
    (build k gs).trie = Trie.insertAll (gs.flatMap (windows k)) Trie.empty := by
  induction gs using List.reverseRecOn with
  | nil => rfl
  | append_singleton gs g ih =>
    rw [build_snoc, addGenome_trie, ih, build_minSearchLen]
    simp [Trie.insertAll, List.foldl_append]

theorem build_genomes (k : Int) (gs : List Genome) :
    (build k gs).genomes = Trie.insertAll (gs.map fun g => (g.name, g)) Trie.empty := by
  induction gs using List.reverseRecOn with
  | nil => rfl
  | append_singleton gs g ih =>
    rw [build_snoc, addGenome_genomes, ih]
    simp [Trie.insertAll, List.foldl_append]

theorem build_lookup (k : Int) (gs : List Genome) (name : Str) :
    (build k gs).genomes.find name true = gs.filter fun g => g.name = name := by
  rw [build_genomes, Trie.find_insertAll_exact _ _ Trie.wf_empty, Trie.find_empty]
  simp [List.filter_map, Function.comp_def]

/-! ## The comparison loop -/

theorem compareLoop_ge (junk : Nat → Char) (e : Bool) (ml : Int) (comp : Str) (rest : Str) :
    ∀ (j len : Nat) (snip push : Bool),
      len ≤ (compareLoop junk e ml comp rest j len snip push).1 := by
  induction rest with
  | nil => intro j len snip push; simp [compareLoop]
  | cons c rest ih =>
    intro j len snip push
    simp only [compareLoop]
    split
    · exact le_trans (Nat.le_succ _) (ih _ _ _ _)
    · split
      · exact le_trans (Nat.le_succ _) (ih _ _ _ _)
      · exact le_refl _

theorem compareLoop_le (junk : Nat → Char) (e : Bool) (ml : Int) (comp : Str) (rest : Str) :
    ∀ (j len : Nat) (snip push : Bool),
      (compareLoop junk e ml comp rest j len snip push).1 ≤ len + rest.length := by
  induction rest with
  | nil => intro j len snip push; simp [compareLoop]
  | cons c rest ih =>
    intro j len snip push
    simp only [compareLoop, List.length_cons]
    split
    · have := ih (j + 1) (len + 1) snip (if (j : Int) = ml - 1 then true else push); omega
    · split
      · have := ih (j + 1) (len + 1) true (if (j : Int) = ml - 1 then true else push); omega
      · omega

/-- The flag `push` is set exactly when position `minimumLength - 1` was extended. -/
theorem compareLoop_push (junk : Nat → Char) (e : Bool) (ml : Int) (comp : Str) (rest : Str) :
    ∀ (j : Nat) (snip push : Bool),
      ((compareLoop junk e ml comp rest j j snip push).2 = true ↔
        push = true ∨ ((j : Int) ≤ ml - 1 ∧
          ml - 1 < ((compareLoop junk e ml comp rest j j snip push).1 : Int))) := by
  induction rest with
  | nil =>
    intro j snip push
    show push = true ↔ push = true ∨ ((j : Int) ≤ ml - 1 ∧ ml - 1 < (j : Int))
    constructor
    · intro h; exact Or.inl h
    · rintro (h | ⟨h1, h2⟩)
      · exact h
      · omega
  | cons c rest ih =>
    intro j snip push
    have key : ∀ s : Bool,
        ((compareLoop junk e ml comp rest (j + 1) (j + 1) s
            (if (j : Int) = ml - 1 then true else push)).2 = true ↔
          push = true ∨ ((j : Int) ≤ ml - 1 ∧ ml - 1 <
            ((compareLoop junk e ml comp rest (j + 1) (j + 1) s
              (if (j : Int) = ml - 1 then true else push)).1 : Int))) := by
      intro s
      have h1 := ih (j + 1) s (if (j : Int) = ml - 1 then true else push)
      have h2 := compareLoop_ge junk e ml comp rest (j + 1) (j + 1) s
        (if (j : Int) = ml - 1 then true else push)
      generalize hP : (if (j : Int) = ml - 1 then true else push) = P at h1 h2 ⊢
      generalize (compareLoop junk e ml comp rest (j + 1) (j + 1) s P) = res at h1 h2 ⊢
      rw [h1]
      by_cases hj : (j : Int) = ml - 1
      · rw [if_pos hj] at hP
        subst hP
        simp only [true_or, true_iff]
        right
        constructor <;> omega
      · rw [if_neg hj] at hP
        subst hP
        constructor
        · rintro (h | ⟨h3, h4⟩)
          · exact Or.inl h
          · right; constructor <;> [skip; exact h4]; push_cast at h3; omega
        · rintro (h | ⟨h3, h4⟩)
          · exact Or.inl h
          · right; constructor <;> [skip; exact h4]; push_cast; omega
    simp only [compareLoop]
    split
    · exact key snip
    · split
      · exact key true
      · show push = true ↔ push = true ∨ ((j : Int) ≤ ml - 1 ∧ ml - 1 < (j : Int))
        constructor
        · intro h; exact Or.inl h
        · rintro (h | ⟨h1, h2⟩)
          · exact h
          · omega

theorem compareLoop_all (junk : Nat → Char) (e : Bool) (ml : Int) (comp : Str) (rest : Str) :
    ∀ (j len : Nat) (snip push : Bool),
      (∀ i, i < rest.length → rest[i]? = some (charAt junk comp (j + i))) →
      (compareLoop junk e ml comp rest j len snip push).1 = len + rest.length := by
  induction rest with
  | nil => intro j len snip push _; simp [compareLoop]
  | cons c rest ih =>
    intro j len snip push h
    have h0 : c = charAt junk comp j := by simpa using h 0 (by simp)
    simp only [compareLoop, h0, if_true, List.length_cons]
    rw [ih]
    · omega
    · intro i hi
      have := h (i + 1) (by simpa using hi)
      simp only [List.getElem?_cons_succ] at this
      rw [this]; congr 2; omega

theorem compareLoop_one (junk : Nat → Char) (ml : Int) (comp : Str) (rest : Str) :
    ∀ (j len : Nat) (push : Bool) (kk : Nat),
      (∀ i, i < rest.length → i ≠ kk → rest[i]? = some (charAt junk comp (j + i))) →
      (compareLoop junk false ml comp rest j len false push).1 = len + rest.length := by
  induction rest with
  | nil => intro j len push kk _; simp [compareLoop]
  | cons c rest ih =>
    intro j len push kk h
    have hrest : ∀ kk2 : Nat, kk = kk2 + 1 ∨ kk = 0 →
        ∀ i, i < rest.length → (kk = kk2 + 1 → i ≠ kk2) →
          rest[i]? = some (charAt junk comp (j + 1 + i)) := by
      intro kk2 hk i hi hne
      have := h (i + 1) (by simpa using hi) (by omega)
      simp only [List.getElem?_cons_succ] at this
      rw [this]; congr 2; omega
    simp only [compareLoop, List.length_cons]
    by_cases hc : c = charAt junk comp j
    · simp only [hc, if_true]
      cases kk with
      | zero =>
        rw [compareLoop_all]
        · omega
        · intro i hi; exact hrest 0 (Or.inr rfl) i hi (by omega)
      | succ kk2 =>
        rw [ih (j + 1) (len + 1) _ kk2]
        · omega
        · intro i hi hne; exact hrest kk2 (Or.inl rfl) i hi (fun _ => hne)
    · have hk0 : kk = 0 := by
        by_contra hne
        have := h 0 (by simp) (fun e => hne e.symm)
        simp at this
        exact hc this
      simp only [hc, if_false, Bool.not_false, Bool.and_self, if_true]
      rw [compareLoop_all]
      · omega
      · intro i hi; exact hrest 0 (Or.inr hk0) i hi (by omega)

theorem compareLoop_exact_full (junk : Nat → Char) (ml : Int) (comp : Str) (rest : Str) :
    ∀ (j len : Nat) (snip push : Bool),
      (compareLoop junk true ml comp rest j len snip push).1 = len + rest.length →
      ∀ i, i < rest.length → rest[i]? = some (charAt junk comp (j + i)) := by
  induction rest with
  | nil => intro j len snip push _ i hi; simp at hi
  | cons c rest ih =>
    intro j len snip push h i hi
    simp only [compareLoop, List.length_cons, Bool.not_true, Bool.and_false,
      Bool.false_eq_true, if_false] at h
    by_cases hc : c = charAt junk comp j
    · simp only [hc, if_true] at h
      cases i with
      | zero => simp [hc]
      | succ i =>
        have := ih (j + 1) (len + 1) _ _ (by rw [h]; omega) i (by simpa using hi)
        simp only [List.getElem?_cons_succ]
        rw [this]; congr 2; omega
    · simp only [hc, if_false] at h
      omega

theorem charAt_of_lt (junk : Nat → Char) (comp : Str) (i : Nat) (hi : i < comp.length) :
    some (charAt junk comp i) = comp[i]? := by
  simp [charAt, List.getElem?_eq_getElem hi]

theorem charAt_nil_zero (junk : Nat → Char) : charAt junk [] 0 = Char.ofNat 0 := by
  simp [charAt]

theorem confirm_le (junk : Nat → Char) (f : Str) (ml : Int) (e : Bool) (g : Genome)
    (pos : Nat) : (confirm junk f ml e g pos).1 ≤ f.length := by
  have := compareLoop_le junk e ml (g.extract pos f.length []).2 f 0 0 false false
  simpa [confirm] using this

theorem confirm_push (junk : Nat → Char) (f : Str) (ml : Int) (e : Bool) (g : Genome)
    (pos : Nat) (hml : 1 ≤ ml) :
    (confirm junk f ml e g pos).2 = true ↔ ml ≤ ((confirm junk f ml e g pos).1 : Int) := by
  have := compareLoop_push junk e ml (g.extract pos f.length []).2 f 0 false false
  simp only [confirm]
  rw [this]
  simp only [Bool.false_eq_true, false_or, Nat.cast_zero]
  constructor
  · rintro ⟨_, h⟩; omega
  · intro h; constructor <;> omega

theorem confirm_exact_iff (junk : Nat → Char) (f : Str) (ml : Int) (g : Genome) (pos : Nat)
    (hf : f ≠ []) (hnul : f.head? ≠ some (Char.ofNat 0)) :
    (confirm junk f ml true g pos).1 = f.length ↔
      pos + f.length ≤ g.length ∧ (g.genome.drop pos).take f.length = f := by
  simp only [confirm, Genome.extract_snd]
  constructor
  · intro h
    have hall := compareLoop_exact_full junk ml _ f 0 0 false false (by simpa using h)
    by_cases hp : pos + f.length ≤ g.length
    · refine ⟨hp, ?_⟩
      rw [if_pos hp] at hall
      have hlen : ((g.genome.drop pos).take f.length).length = f.length := by
        simp only [List.length_take, List.length_drop, Genome.length] at hp ⊢; omega
      apply List.ext_getElem?
      intro i
      by_cases hi : i < f.length
      · rw [hall i hi, Nat.zero_add, charAt_of_lt junk _ i (by omega)]
      · rw [List.getElem?_eq_none (by omega), List.getElem?_eq_none (by omega)]
    · exfalso
      rw [if_neg hp] at hall
      have h0 := hall 0 (List.length_pos.2 hf)
      rw [Nat.zero_add, charAt_nil_zero, ← List.head?_eq_getElem?] at h0
      exact hnul h0
  · rintro ⟨hp, he⟩
    rw [if_pos hp, he]
    have := compareLoop_all junk true ml f f 0 0 false false (by
      intro i hi
      rw [Nat.zero_add, charAt_of_lt junk f i hi])
    simpa using this

theorem confirm_approx_full (junk : Nat → Char) (f : Str) (ml : Int) (g : Genome)
    (pos kk : Nat) (hp : pos + f.length ≤ g.length)
    (h : ∀ i, i < f.length → i ≠ kk → f[i]? = g.genome[pos + i]?) :
    (confirm junk f ml false g pos).1 = f.length := by
  simp only [confirm, Genome.extract_snd, if_pos hp]
  have := compareLoop_one junk ml ((g.genome.drop pos).take f.length) f 0 0 false kk (by
    intro i hi hne
    have hlen : i < ((g.genome.drop pos).take f.length).length := by
      simp only [List.length_take, List.length_drop, Genome.length] at hp ⊢; omega
    rw [Nat.zero_add, charAt_of_lt junk _ i hlen, h i hi hne, List.getElem?_take,
      if_pos hi, List.getElem?_drop])
  simpa using this

theorem scoreOf_push (m : GenomeMatcherImpl) (junk : Nat → Nat → Char) (f : Str) (ml : Int)
    (e : Bool) (hml : 1 ≤ ml) (c : Nat × DNAMatch) :
    (scoreOf m junk f ml e c).2 = true ↔ ml.toNat ≤ (scoreOf m junk f ml e c).1 := by
  unfold scoreOf
  split
  · simp only [Bool.false_eq_true, false_iff]; omega
  · rw [confirm_push _ _ _ _ _ _ hml]; omega

theorem filter_name_unique (gs : List Genome) (hnd : (gs.map Genome.name).Nodup)
    (G : Genome) (hG : G ∈ gs) : (gs.filter fun g => g.name = G.name) = [G] := by
  induction gs with
  | nil => simp at hG
  | cons g gs ih =>
    simp only [List.map_cons, List.nodup_cons, List.mem_map, not_exists, not_and] at hnd
    rcases List.mem_cons.1 hG with rfl | hG
    · have : (gs.filter fun g => g.name = G.name) = [] := by
        rw [List.filter_eq_nil_iff]
        intro x hx; simpa using hnd.1 x hx
      simp [List.filter_cons, this]
    · have hne : ¬ g.name = G.name := fun e => hnd.1 G hG e.symm
      simp [List.filter_cons, hne, ih hnd.2 hG]

theorem scoreOf_build (k : Int) (gs : List Genome) (hnd : (gs.map Genome.name).Nodup)
    (junk : Nat → Nat → Char) (f : Str) (ml : Int) (e : Bool) (G : Genome) (hG : G ∈ gs)
    (c : Nat × DNAMatch) (hc : c.2.genomeName = G.name) :
    scoreOf (build k gs) junk f ml e c = confirm (junk c.1) f ml e G c.2.position := by
  simp [scoreOf, build_lookup, hc, filter_name_unique gs hnd G hG]

theorem mem_windows (k : Int) (g : Genome) (p : Str × DNAMatch) :
    p ∈ windows k g ↔ ∃ i : Nat, (i : Int) + k ≤ g.length ∧
      p = ((g.genome.drop i).take k.toNat,
        { genomeName := g.name, length := g.length, position := i }) := by
  simp only [windows, List.mem_map, List.mem_range]
  constructor
  · rintro ⟨i, hi, rfl⟩; exact ⟨i, by omega, rfl⟩
  · rintro ⟨i, hi, rfl⟩; exact ⟨i, by omega, rfl⟩

theorem mem_candidates_build (k : Int) (gs : List Genome) (f : Str) (e : Bool)
    (c : DNAMatch) :
    c ∈ candidates (build k gs) f e ↔ ∃ g ∈ gs, ∃ i : Nat, (i : Int) + k ≤ g.length ∧
      c = { genomeName := g.name, length := g.length, position := i } ∧
      Trie.reach e true (f.take k.toNat) ((g.genome.drop i).take k.toNat) = true := by
  simp only [candidates, minimumSearchLength, build_minSearchLen, build_trie]
  rw [(Trie.find_insertAll_perm _ _ _ _).mem_iff, Trie.find_empty]
  simp only [List.nil_append, List.mem_map, List.mem_filter, List.mem_flatMap, mem_windows]
  constructor
  · rintro ⟨p, ⟨⟨g, hg, i, hi, rfl⟩, hr⟩, rfl⟩
    exact ⟨g, hg, i, hi, rfl, hr⟩
  · rintro ⟨g, hg, i, hi, rfl, hr⟩
    exact ⟨_, ⟨⟨g, hg, i, hi, rfl⟩, hr⟩, rfl⟩

theorem foldlM_matchStep (m : GenomeMatcherImpl) (junk : Nat → Nat → Char) (f : Str)
    (ml : Int) (e : Bool) (cands : List (Nat × DNAMatch))
    (h : ∀ c ∈ cands, (m.genomes.find c.2.genomeName true) ≠ []) :
    ∀ recorder : UMap DNAMatch,
      cands.foldlM (fun r ic => matchStep m (junk ic.1) f ml e r ic.2) recorder =
        some (cands.foldl (fun r ic => recordStep (scoreOf m junk f ml e ic) r ic.2)
          recorder) := by
  induction cands with
  | nil => intro recorder; rfl
  | cons c cands ih =>
    intro recorder
    have hc := h c (by simp)
    obtain ⟨g, gs, hg⟩ := List.exists_cons_of_ne_nil hc
    simp only [List.foldlM_cons, List.foldl_cons, matchStep, scoreOf, hg, List.head?_cons]
    exact ih (fun c hc => h c (by simp [hc])) _

theorem lookup_candidate (k : Int) (gs : List Genome) (f : Str) (e : Bool) (c : DNAMatch)
    (hc : c ∈ candidates (build k gs) f e) :
    (build k gs).genomes.find c.genomeName true ≠ [] := by
  obtain ⟨g, hg, i, _, rfl, _⟩ := (mem_candidates_build k gs f e c).1 hc
  rw [build_lookup]
  intro h
  have : g ∈ gs.filter fun x => x.name = g.name := by simp [hg]
  rw [h] at this
  simp at this

/-- On an index built by `addGenome`, the lookup is defined and returns `bestHits`. -/
theorem findGenomes_build (k : Int) (hk : 1 ≤ k) (gs : List Genome)
    (junk : Nat → Nat → Char) (f : Str) (ml : Int) (e : Bool) :
    findGenomesWithThisDNA (build k gs) junk f ml e =
      if ml < 0 ∨ (f.length : Int) < ml ∨ ml < k then some (false, [])
      else some (!(bestHits (build k gs) junk f ml e).isEmpty,
        bestHits (build k gs) junk f ml e) := by
  unfold findGenomesWithThisDNA
  simp only [minimumSearchLength, build_minSearchLen]
  by_cases h1 : ml < 0 ∨ (f.length : Int) < ml
  · have : ml < 0 ∨ (f.length : Int) < ml ∨ ml < k := by omega
    rw [if_pos h1, if_pos this]
  · rw [if_neg h1]
    by_cases h2 : ml < k
    · have : ml < 0 ∨ (f.length : Int) < ml ∨ ml < k := by omega
      rw [if_pos h2, if_pos this]
    · have : ¬ (ml < 0 ∨ (f.length : Int) < ml ∨ ml < k) := by omega
      rw [if_neg h2, if_neg this, if_neg (by omega : ¬ k < 0)]
      have hfold := foldlM_matchStep (build k gs) junk f ml e
        (candidates (build k gs) f e).enum
        (fun c hc => lookup_candidate k gs f e c.2 (List.snd_mem_of_mem_enum hc)) []
      simp only [candidates, minimumSearchLength, build_minSearchLen] at hfold
      simp only [hfold, bestHits, candidates, minimumSearchLength, build_minSearchLen]

/-! ## The map `recorder` -/

theorem umap_find_none {T : Type} (m : UMap T) (k : Str) :
    m.find k = none ↔ ∀ p ∈ m, p.1 ≠ k := by
  simp only [UMap.find, List.lookup_eq_none_iff, bne_iff_ne, ne_eq]
  constructor
  · intro h p hp e; exact h p hp e.symm
  · intro h p hp e; exact h p hp e.symm

theorem umap_find_some {T : Type} (m : UMap T) (k : Str) (v : T) (h : m.find k = some v) :
    (k, v) ∈ m := by
  induction m with
  | nil => simp [UMap.find] at h
  | cons p m ih =>
    obtain ⟨a, b⟩ := p
    by_cases hk : k = a
    · subst hk
      simp [UMap.find, List.lookup] at h
      simp [h]
    · have : (k == a) = false := by simpa using hk
      simp only [UMap.find, List.lookup, this] at h
      exact List.mem_cons_of_mem _ (ih h)

theorem umap_unique {T : Type} (m : UMap T) (hnd : (m.map Prod.fst).Nodup) (k : Str) (v w : T)
    (hv : (k, v) ∈ m) (hw : (k, w) ∈ m) : v = w := by
  induction m with
  | nil => simp at hv
  | cons p m ih =>
    simp only [List.map_cons, List.nodup_cons, List.mem_map, not_exists, not_and] at hnd
    simp only [List.mem_cons] at hv hw
    rcases hv with hv | hv <;> rcases hw with hw | hw
    · rw [← hw] at hv; exact (Prod.mk.inj hv).2
    · exact absurd (by rw [← hv]) (hnd.1 _ hw)
    · exact absurd (by rw [← hw]) (hnd.1 _ hv)
    · exact ih hnd.2 hv hw

theorem umap_mem_erase {T : Type} (m : UMap T) (k : Str) (p : Str × T) :
    p ∈ m.erase k ↔ p ∈ m ∧ p.1 ≠ k := by
  simp [UMap.erase]

theorem umap_insert_erase {T : Type} (m : UMap T) (k : Str) (v : T) :
    (m.erase k).insert k v = m.erase k ++ [(k, v)] := by
  have : (m.erase k).find k = none := by
    rw [umap_find_none]; intro p hp; exact ((umap_mem_erase m k p).1 hp).2
  simp [UMap.insert, this]

theorem umap_erase_absent {T : Type} (m : UMap T) (k : Str) (h : m.find k = none) :
    m.erase k = m := by
  rw [umap_find_none] at h
  simp only [UMap.erase, List.filter_eq_self]
  intro p hp; simpa using h p hp

theorem umap_nodup_erase_insert {T : Type} (m : UMap T) (hnd : (m.map Prod.fst).Nodup)
    (k : Str) (v : T) : ((m.erase k ++ [(k, v)]).map Prod.fst).Nodup := by
  rw [List.map_append]
  refine List.Nodup.append ?_ (by simp) ?_
  · exact List.Nodup.sublist (List.Sublist.map _ (List.filter_sublist _)) hnd
  · intro a ha hb
    rw [List.mem_map] at ha
    obtain ⟨p, hp, rfl⟩ := ha
    simp only [List.map_cons, List.map_nil, List.mem_singleton] at hb
    exact ((umap_mem_erase m k p).1 hp).2 hb

/-- The three outcomes of a round of the outer loop on the map `recorder`. -/
theorem recordStep_cases (r : Nat × Bool) (recorder : UMap DNAMatch) (cand : DNAMatch)
    (hnd : (recorder.map Prod.fst).Nodup) :
    (recordStep r recorder cand = recorder ∧
      (r.2 = false ∨ ∃ old, (cand.genomeName, old) ∈ recorder ∧
        (r.1 < old.length ∨ (r.1 = old.length ∧ old.position ≤ cand.position)))) ∨
    (recordStep r recorder cand =
        recorder.erase cand.genomeName ++
          [(cand.genomeName, { cand with length := r.1 })] ∧ r.2 = true ∧
      ∀ old, (cand.genomeName, old) ∈ recorder →
        (old.length < r.1 ∨ (old.length = r.1 ∧ cand.position < old.position))) ∨
    (r.2 = false ∧ ∃ old, (cand.genomeName, old) ∈ recorder ∧ old.length ≤ r.1) := by
  cases hf : recorder.find cand.genomeName with
  | none =>
    by_cases hp : r.2 = true
    · right; left
      refine ⟨?_, hp, ?_⟩
      · simp only [recordStep, hf, hp, if_true]
        have h1 := umap_insert_erase recorder cand.genomeName
          { cand with length := r.1 }
        rw [umap_erase_absent recorder _ hf] at h1
        rw [umap_erase_absent recorder _ hf, h1]
      · intro old ho
        exact absurd rfl ((umap_find_none _ _).1 hf _ ho)
    · left
      simp only [Bool.not_eq_true] at hp
      exact ⟨by simp [recordStep, hf, hp], Or.inl hp⟩
  | some old =>
    have ho := umap_find_some _ _ _ hf
    by_cases hb : r.1 > old.length ∨ (r.1 = old.length ∧ cand.position < old.position)
    · by_cases hp : r.2 = true
      · right; left
        refine ⟨?_, hp, ?_⟩
        · simp only [recordStep, hf, hb, hp, if_true]
          rw [umap_insert_erase]
        · intro old2 ho2
          rw [umap_unique _ hnd _ _ _ ho2 ho]
          rcases hb with hb | hb
          · exact Or.inl hb
          · exact Or.inr ⟨hb.1.symm, hb.2⟩
      · right; right
        simp only [Bool.not_eq_true] at hp
        exact ⟨hp, old, ho, by omega⟩
    · left
      refine ⟨by simp [recordStep, hf, hb], Or.inr ⟨old, ho, ?_⟩⟩
      omega

theorem recInv_step (sc : Nat × DNAMatch → Nat × Bool) (L : Nat)
    (hq : ∀ c, (sc c).2 = true ↔ L ≤ (sc c).1) (done : List (Nat × DNAMatch))
    (recorder : UMap DNAMatch) (cand : Nat × DNAMatch) (h : RecInv sc done recorder) :
    RecInv sc (done ++ [cand]) (recordStep (sc cand) recorder cand.2) := by
  obtain ⟨hnd, h2, h3⟩ := h
  rcases recordStep_cases (sc cand) recorder cand.2 hnd with
    ⟨he, hc⟩ | ⟨he, hp, hc⟩ | ⟨hp, old, ho, hle⟩
  · rw [he]
    refine ⟨hnd, ?_, ?_⟩
    · intro p hp
      obtain ⟨e1, c, hc1, hc2⟩ := h2 p hp
      exact ⟨e1, c, by simp [hc1], hc2⟩
    · intro c hc1 hc2
      rw [List.mem_append, List.mem_singleton] at hc1
      rcases hc1 with hc1 | rfl
      · exact h3 c hc1 hc2
      · rcases hc with hc | ⟨old, ho, hd⟩
        · rw [hc] at hc2; exact absurd hc2 (by simp)
        · exact ⟨_, ho, rfl, hd⟩
  · rw [he]
    refine ⟨umap_nodup_erase_insert _ hnd _ _, ?_, ?_⟩
    · intro p hp1
      rw [List.mem_append, List.mem_singleton] at hp1
      rcases hp1 with hp1 | rfl
      · obtain ⟨e1, c, hc1, hc2⟩ := h2 p ((umap_mem_erase _ _ _).1 hp1).1
        exact ⟨e1, c, by simp [hc1], hc2⟩
      · exact ⟨rfl, cand, by simp, rfl, rfl, rfl, hp⟩
    · intro c hc1 hc2
      rw [List.mem_append, List.mem_singleton] at hc1
      rcases hc1 with hc1 | rfl
      · obtain ⟨p, hp1, hp2, hp3⟩ := h3 c hc1 hc2
        by_cases hn : p.1 = cand.2.genomeName
        · have hmem : (cand.2.genomeName, p.2) ∈ recorder := by rw [← hn]; exact hp1
          have hb := hc p.2 hmem
          refine ⟨(cand.2.genomeName, { cand.2 with length := (sc cand).1 }), by simp,
            by rw [← hp2, hn], ?_⟩
          simp only
          omega
        · exact ⟨p, List.mem_append_left _ ((umap_mem_erase _ _ _).2 ⟨hp1, hn⟩), hp2, hp3⟩
      · exact ⟨(c.2.genomeName, { c.2 with length := (sc c).1 }), by simp, rfl,
          Or.inr ⟨rfl, le_refl _⟩⟩
  · exfalso
    obtain ⟨_, c, _, _, _, hlen, hpush⟩ := h2 _ ho
    have h1 : L ≤ old.length := by rw [hlen]; exact (hq c).1 hpush
    have h4 : (sc cand).2 = true := (hq cand).2 (by omega)
    rw [hp] at h4; exact absurd h4 (by simp)

theorem recInv_foldl (sc : Nat × DNAMatch → Nat × Bool) (L : Nat)
    (hq : ∀ c, (sc c).2 = true ↔ L ≤ (sc c).1) (cands : List (Nat × DNAMatch)) :
    ∀ (done : List (Nat × DNAMatch)) (recorder : UMap DNAMatch), RecInv sc done recorder →
      RecInv sc (done ++ cands)
        (cands.foldl (fun r c => recordStep (sc c) r c.2) recorder) := by
  induction cands with
  | nil => intro done recorder h; simpa using h
  | cons c cands ih =>
    intro done recorder h
    have := ih (done ++ [c]) _ (recInv_step sc L hq done recorder c h)
    simpa using this

theorem recInv_nil (sc : Nat × DNAMatch → Nat × Bool) : RecInv sc [] [] := by
  refine ⟨by simp, ?_, ?_⟩
  · intro p hp; cases hp
  · intro c hc; cases hc

theorem bestHits_inv (m : GenomeMatcherImpl) (junk : Nat → Nat → Char) (f : Str) (ml : Int)
    (e : Bool) (hml : 1 ≤ ml) :
    ∃ recorder : UMap DNAMatch, bestHits m junk f ml e = recorder.map Prod.snd ∧
      RecInv (scoreOf m junk f ml e) (candidates m f e).enum recorder := by
  refine ⟨_, rfl, ?_⟩
  have := recInv_foldl (scoreOf m junk f ml e) ml.toNat (scoreOf_push m junk f ml e hml)
    (candidates m f e).enum [] [] (recInv_nil _)
  simpa using this

theorem scoreOf_le (m : GenomeMatcherImpl) (junk : Nat → Nat → Char) (f : Str) (ml : Int)
    (e : Bool) (c : Nat × DNAMatch) : (scoreOf m junk f ml e c).1 ≤ f.length := by
  unfold scoreOf
  split
  · exact Nat.zero_le _
  · exact confirm_le _ _ _ _ _ _

theorem mem_enum_of_mem {α : Type} (l : List α) (c : α) (h : c ∈ l) :
    ∃ i, (i, c) ∈ l.enum := by
  rw [← List.enum_map_snd l] at h
  obtain ⟨ic, hic, rfl⟩ := List.mem_map.1 h
  exact ⟨ic.1, hic⟩

theorem name_inj (gs : List Genome) (hnd : (gs.map Genome.name).Nodup) (g G : Genome)
    (hg : g ∈ gs) (hG : G ∈ gs) (h : g.name = G.name) : g = G := by
  have h1 : g ∈ gs.filter fun x => x.name = G.name := by simp [hg, h]
  rw [filter_name_unique gs hnd G hG] at h1
  simpa using h1

theorem reach_head (e : Bool) (a b : Str) (ha : a ≠ []) (hb : b ≠ [])
    (h : Trie.reach e true a b = true) : a[0]? = b[0]? := by
  cases a with
  | nil => exact absurd rfl ha
  | cons c a =>
    cases b with
    | nil => exact absurd rfl hb
    | cons d b =>
      by_cases hc : c = d
      · simp [hc]
      · simp [Trie.reach, hc] at h

theorem reach_spent_pointwise (a : Str) : ∀ (b : Str) (kk : Nat), a.length = b.length →
    (∀ i, i < a.length → i ≠ kk → a[i]? = b[i]?) → Trie.reach false false a b = true := by
  induction a with
  | nil => intro b kk hl _; cases b <;> simp_all [Trie.reach]
  | cons c a ih =>
    intro b kk hl h
    cases b with
    | nil => simp at hl
    | cons d b =>
      have hl2 : a.length = b.length := by simpa using hl
      have hrest : ∀ i, i < a.length → i + 1 ≠ kk → a[i]? = b[i]? := by
        intro i hi hne
        simpa using h (i + 1) (by simpa using hi) hne
      by_cases hc : c = d
      · simp only [Trie.reach, hc, if_true]
        cases kk with
        | zero => exact ih b a.length hl2 (fun i hi _ => hrest i hi (by omega))
        | succ kk2 => exact ih b kk2 hl2 (fun i hi hne => hrest i hi (by omega))
      · have hk0 : kk = 0 := by
          by_contra hne
          have := h 0 (by simp) (fun e => hne e.symm)
          simp at this
          exact hc this
        simp only [Trie.reach, hc, if_false, Bool.not_false, Bool.and_self, if_true,
          Trie.reach_exact, decide_eq_true_eq]
        apply List.ext_getElem?
        intro i
        by_cases hi : i < a.length
        · exact hrest i hi (by omega)
        · rw [List.getElem?_eq_none (by omega), List.getElem?_eq_none (by omega)]

theorem reach_root_pointwise (a b : Str) (kk : Nat) (hk : kk ≠ 0) (hl : a.length = b.length)
    (h : ∀ i, i < a.length → i ≠ kk → a[i]? = b[i]?) : Trie.reach false true a b = true := by
  cases a with
  | nil => cases b <;> simp_all [Trie.reach]
  | cons c a =>
    cases b with
    | nil => simp at hl
    | cons d b =>
      have hc : c = d := by simpa using h 0 (by simp) (fun e => hk e.symm)
      simp only [Trie.reach, hc, if_true]
      cases kk with
      | zero => exact absurd rfl hk
      | succ kk2 =>
        refine reach_spent_pointwise a b kk2 (by simpa using hl) ?_
        intro i hi hne
        simpa using h (i + 1) (by simpa using hi) (by omega)

theorem filter_range_le (P : Nat → Bool) (m : Nat) : ∀ N : Nat, m ≤ N →
    (List.range N).filter (fun i => decide (i < m) && P i) = (List.range m).filter P := by
  intro N hN
  obtain ⟨d, rfl⟩ := Nat.exists_eq_add_of_le hN
  clear hN
  induction d with
  | zero =>
    apply List.filter_congr
    intro i hi
    have : i < m := by simpa using List.mem_range.1 hi
    simp [this]
  | succ d ih =>
    rw [← Nat.add_assoc, List.range_succ, List.filter_append, ih]
    simp

/-! ## The hit counters of `findRelatedGenomes` -/

theorem map_fst_increment (r : UMap Nat) (name : Str) :
    (r.increment name).map Prod.fst = r.map Prod.fst := by
  simp only [UMap.increment, List.map_map]
  apply List.map_congr_left
  intro p _
  by_cases h : p.1 = name <;> simp [h]

theorem mem_increment (r : UMap Nat) (name x : Str) (c : Nat) :
    (x, c) ∈ r.increment name ↔
      if x = name then ∃ d, (x, d) ∈ r ∧ c = d + 1 else (x, c) ∈ r := by
  simp only [UMap.increment, List.mem_map]
  constructor
  · rintro ⟨⟨y, d⟩, hp, he⟩
    by_cases hy : y = name
    · simp only [hy, if_true, Prod.mk.injEq] at he
      obtain ⟨rfl, rfl⟩ := he
      simp only [if_true]
      exact ⟨d, by rw [← hy]; exact hp, rfl⟩
    · simp only [hy, if_false, Prod.mk.injEq] at he
      obtain ⟨rfl, rfl⟩ := he
      simp only [hy, if_false]
      exact hp
  · intro h
    by_cases hx : x = name
    · rw [if_pos hx] at h
      obtain ⟨d, hd, rfl⟩ := h
      exact ⟨(x, d), hd, by simp [hx]⟩
    · rw [if_neg hx] at h
      exact ⟨(x, c), h, by simp [hx]⟩

theorem countInv_step (ns : List Str) (r : UMap Nat) (name : Str) (h : CountInv ns r) :
    CountInv (ns ++ [name]) ((r.insert name 0).increment name) := by
  obtain ⟨hnd, hm⟩ := h
  cases hf : r.find name with
  | none =>
    have habs := (umap_find_none r name).1 hf
    have h0 : ns.count name = 0 := by
      by_contra hne
      have := (hm name (ns.count name)).2 ⟨rfl, by omega⟩
      exact habs _ this rfl
    have hins : r.insert name 0 = r ++ [(name, 0)] := by simp [UMap.insert, hf]
    rw [hins]
    refine ⟨?_, ?_⟩
    · rw [map_fst_increment, List.map_append]
      refine List.Nodup.append hnd (by simp) ?_
      intro a ha hb
      obtain ⟨p, hp, rfl⟩ := List.mem_map.1 ha
      simp only [List.map_cons, List.map_nil, List.mem_singleton] at hb
      exact habs p hp hb
    · intro x c
      rw [mem_increment, List.count_append]
      by_cases hx : x = name
      · subst hx
        simp only [if_true, List.mem_append, List.mem_singleton, Prod.mk.injEq, true_and,
          List.count_singleton_self, h0]
        constructor
        · rintro ⟨d, hd | rfl, rfl⟩
          · exact absurd rfl (habs _ hd)
          · simp
        · rintro ⟨rfl, _⟩
          exact ⟨0, Or.inr rfl, rfl⟩
      · have hc : List.count x [name] = 0 :=
          List.count_eq_zero_of_not_mem (by simpa using hx)
        simp only [hx, if_false, List.mem_append, List.mem_singleton, Prod.mk.injEq,
          false_and, or_false, hc, Nat.add_zero]
        exact hm x c
  | some c0 =>
    have hc0 := umap_find_some r name c0 hf
    have hins : r.insert name 0 = r := by simp [UMap.insert, hf]
    rw [hins]
    refine ⟨by rw [map_fst_increment]; exact hnd, ?_⟩
    intro x c
    rw [mem_increment, List.count_append]
    by_cases hx : x = name
    · subst hx
      simp only [if_true, List.count_singleton_self]
      have h1 := (hm x c0).1 hc0
      constructor
      · rintro ⟨d, hd, rfl⟩
        have := (hm x d).1 hd
        omega
      · rintro ⟨rfl, _⟩
        exact ⟨c0, hc0, by omega⟩
    · have hc : List.count x [name] = 0 :=
        List.count_eq_zero_of_not_mem (by simpa using hx)
      simp only [hx, if_false, hc, Nat.add_zero]
      exact hm x c

theorem countInv_countMatches (found : List DNAMatch) :
    ∀ (ns : List Str) (r : UMap Nat), CountInv ns r →
      CountInv (ns ++ found.map DNAMatch.genomeName) (countMatches r found) := by
  induction found with
  | nil => intro ns r h; simpa [countMatches] using h
  | cons d found ih =>
    intro ns r h
    have := ih (ns ++ [d.genomeName]) _ (countInv_step ns r d.genomeName h)
    simpa [countMatches] using this

theorem countInv_nil : CountInv [] [] := by
  refine ⟨by simp, ?_⟩
  intro name c
  simp only [List.not_mem_nil, List.count_nil, false_iff, not_and]
  omega

theorem foldlM_relatedStep (m : GenomeMatcherImpl) (junk : Nat → Nat → Nat → Char) (query : Genome)
    (L : Int) (e : Bool) (l : List Nat)
    (hdef : ∀ i ∈ l, ∃ r,
      findGenomesWithThisDNA m (junk i) (querySequence query L i) L e = some r) :
    ∀ (ns : List Str) (recorder : UMap Nat), CountInv ns recorder →
      ∃ final, l.foldlM (relatedStep m junk query L e) recorder = some final ∧
        CountInv (ns ++ l.flatMap (namesOf m junk query L e)) final := by
  induction l with
  | nil => intro ns recorder h; exact ⟨recorder, rfl, by simpa using h⟩
  | cons i l ih =>
    intro ns recorder h
    obtain ⟨r, hr⟩ := hdef i (by simp)
    have hstep : relatedStep m junk query L e recorder i = some (countMatches recorder r.2) := by
      simp [relatedStep, hr]
    have hnames : namesOf m junk query L e i = r.2.map DNAMatch.genomeName := by
      simp [namesOf, hr]
    obtain ⟨final, hf1, hf2⟩ := ih (fun j hj => hdef j (by simp [hj])) _ _
      (countInv_countMatches r.2 ns recorder h)
    refine ⟨final, ?_, ?_⟩
    · simp only [List.foldlM_cons, hstep]
      exact hf1
    · simpa [hnames, List.append_assoc] using hf2

theorem count_one_of_nodup {α : Type} [BEq α] [LawfulBEq α] (x : α) (l : List α)
    (hnd : l.Nodup) (hx : x ∈ l) : l.count x = 1 := by
  induction l with
  | nil => simp at hx
  | cons a l ih =>
    rw [List.nodup_cons] at hnd
    rcases List.mem_cons.1 hx with rfl | hx
    · rw [List.count_cons_self, List.count_eq_zero_of_not_mem hnd.1]
    · have hne : (a == x) = false := by
        rw [beq_eq_false_iff_ne]
        intro e; subst e; exact hnd.1 hx
      rw [List.count_cons, ih hnd.2 hx, hne]; simp

theorem count_flatMap_nodup (f : Nat → List Str) (hf : ∀ i, (f i).Nodup) (x : Str)
    (l : List Nat) : (l.flatMap f).count x = l.countP fun i => decide (x ∈ f i) := by
  induction l with
  | nil => simp
  | cons i l ih =>
    rw [List.flatMap_cons, List.count_append, ih, List.countP_cons]
    by_cases hx : x ∈ f i
    · rw [count_one_of_nodup x (f i) (hf i) hx]; simp [hx]; omega
    · rw [List.count_eq_zero_of_not_mem hx]; simp [hx]

theorem findGenomes_build_nodup (k : Int) (hk : 1 ≤ k) (gs : List Genome)
    (junk : Nat → Nat → Char) (f : Str) (ml : Int) (e : Bool) :
    ∃ r, findGenomesWithThisDNA (build k gs) junk f ml e = some r ∧
      (r.2.map DNAMatch.genomeName).Nodup := by
  rw [findGenomes_build k hk]
  by_cases hpre : ml < 0 ∨ (f.length : Int) < ml ∨ ml < k
  · rw [if_pos hpre]; exact ⟨_, rfl, by simp⟩
  · rw [if_neg hpre]
    refine ⟨_, rfl, ?_⟩
    obtain ⟨recorder, hrec, h1, h2, _⟩ := bestHits_inv (build k gs) junk f ml e (by omega)
    simp only [hrec, List.map_map]
    have : recorder.map (DNAMatch.genomeName ∘ Prod.snd) = recorder.map Prod.fst := by
      apply List.map_congr_left
      intro q hq
      exact ((h2 q hq).1).symm
    rw [this]; exact h1

theorem namesOf_nodup (k : Int) (hk : 1 ≤ k) (gs : List Genome) (junk : Nat → Nat → Nat → Char)
    (query : Genome) (L : Int) (e : Bool) (i : Nat) :
    (namesOf (build k gs) junk query L e i).Nodup := by
  obtain ⟨r, hr, hnd⟩ :=
    findGenomes_build_nodup k hk gs (junk i) (querySequence query L i) L e
  simpa [namesOf, hr] using hnd

theorem querySequence_eq (query : Genome) (L i : Nat) (hi : i < query.length / L) :
    querySequence query (L : Int) i = (query.genome.drop (i * L)).take L := by
  have h1 : ((i : Int) * (L : Int)).toNat = i * L := by
    rw [← Nat.cast_mul]; exact Int.toNat_ofNat _
  have h2 : i * L + L ≤ query.length := by
    have := Nat.div_mul_le_self query.length L
    have h3 : (i + 1) * L ≤ query.length / L * L := Nat.mul_le_mul_right L hi
    have h4 : (i + 1) * L = i * L + L := by ring
    omega
  rw [querySequence, h1, Genome.extract_snd, if_pos h2]

/-- On an index built by `addGenome` with `minSearchLength ≥ 1`, `findRelatedGenomes` is
defined; its result is the sorted list of the counters that meet the threshold, and a
genome name has a counter exactly when its hit count is positive. -/
theorem related_build (k : Int) (hk : 1 ≤ k) (gs : List Genome) (junk : Nat → Nat → Nat → Char)
    (query : Genome) (L : Nat) (hL : k ≤ (L : Int)) (e : Bool) (t : ℚ) :
    ∃ recorder : UMap Nat,
      findRelatedGenomes (build k gs) junk query (L : Int) e t =
        some (!((keepRelated ((query.length / L : Nat) : Int) t recorder).insertionSort
            (fun a b => compare a b = true)).isEmpty,
          (keepRelated ((query.length / L : Nat) : Int) t recorder).insertionSort
            (fun a b => compare a b = true)) ∧
      (recorder.map Prod.fst).Nodup ∧
      ∀ (name : Str) (c : Nat), (name, c) ∈ recorder ↔
        (c = hitCount (build k gs) junk query L e name ∧ 1 ≤ c) := by
  obtain ⟨final, hf1, hf2, hf3⟩ := foldlM_relatedStep (build k gs) junk query (L : Int) e
    (List.range (query.length / L))
    (fun i _ => by
      obtain ⟨r, hr, _⟩ := findGenomes_build_nodup k hk gs (junk i)
        (querySequence query (L : Int) i) (L : Int) e
      exact ⟨r, hr⟩) [] [] countInv_nil
  refine ⟨final, ?_, hf2, ?_⟩
  · unfold findRelatedGenomes
    simp only [minimumSearchLength, build_minSearchLen]
    rw [if_neg (by omega), if_neg (by omega)]
    have hdiv : Int.tdiv (query.length : Int) (L : Int) = ((query.length / L : Nat) : Int) := rfl
    simp only [hdiv, Int.toNat_ofNat, hf1]
  · intro name c
    rw [hf3 name c, List.nil_append,
      count_flatMap_nodup _ (namesOf_nodup k hk gs junk query (L : Int) e)]
    have : (List.range (query.length / L)).countP
          (fun i => decide (name ∈ namesOf (build k gs) junk query (L : Int) e i)) =
        hitCount (build k gs) junk query L e name := by
      unfold hitCount
      apply List.countP_congr
      intro i hi
      rw [List.mem_range] at hi
      simp only [namesOf, querySequence_eq query L i hi]
      cases findGenomesWithThisDNA (build k gs) (junk i)
        ((query.genome.drop (i * L)).take L) (L : Int) e with
      | none => simp
      | some r => simp
    rw [this]

theorem compare_iff (a b : GenomeMatch) :
    compare a b = true ↔
      b.percentMatch < a.percentMatch ∨
        (a.percentMatch = b.percentMatch ∧ a.genomeName ≤ b.genomeName) := by
  unfold compare
  by_cases h : a.percentMatch = b.percentMatch
  · simp only [h, if_true, lt_irrefl, false_or, true_and]
    by_cases h2 : a.genomeName > b.genomeName
    · simp only [h2, if_true, Bool.false_eq_true, false_iff, not_le]
    · simp only [h2, if_false, true_iff]
      exact not_lt.1 h2
  · simp only [h, if_false, decide_eq_true_eq, false_and, or_false, gt_iff_lt]

theorem compare_total (a b : GenomeMatch) : compare a b = true ∨ compare b a = true := by
  rw [compare_iff, compare_iff]
  rcases lt_trichotomy a.percentMatch b.percentMatch with h | h | h
  · exact Or.inr (Or.inl h)
  · rcases le_total a.genomeName b.genomeName with h2 | h2
    · exact Or.inl (Or.inr ⟨h, h2⟩)
    · exact Or.inr (Or.inr ⟨h.symm, h2⟩)
  · exact Or.inl (Or.inl h)

theorem compare_trans (a b c : GenomeMatch) (h1 : compare a b = true)
    (h2 : compare b c = true) : compare a c = true := by
  rw [compare_iff] at h1 h2 ⊢
  rcases h1 with h1 | ⟨h1, h1n⟩ <;> rcases h2 with h2 | ⟨h2, h2n⟩
  · exact Or.inl (lt_trans h2 h1)
  · exact Or.inl (by rw [← h2]; exact h1)
  · exact Or.inl (by rw [h1]; exact h2)
  · exact Or.inr ⟨h1.trans h2, le_trans h1n h2n⟩

theorem sorted_related (l : List GenomeMatch) (hnd : (l.map GenomeMatch.genomeName).Nodup) :
    ((l.insertionSort fun a b => compare a b = true).map GenomeMatch.genomeName).Nodup ∧
    List.Chain' (fun a b : GenomeMatch => a.percentMatch > b.percentMatch ∨
      (a.percentMatch = b.percentMatch ∧ a.genomeName < b.genomeName))
      (l.insertionSort fun a b => compare a b = true) := by
  haveI : IsTotal GenomeMatch (fun a b => compare a b = true) := ⟨compare_total⟩
  haveI : IsTrans GenomeMatch (fun a b => compare a b = true) := ⟨compare_trans⟩
  have hperm := List.perm_insertionSort (fun a b : GenomeMatch => compare a b = true) l
  have hnd2 : ((l.insertionSort fun a b => compare a b = true).map
      GenomeMatch.genomeName).Nodup := ((hperm.map _).nodup_iff).2 hnd
  refine ⟨hnd2, ?_⟩
  have hs : List.Pairwise (fun a b : GenomeMatch => compare a b = true)
      (l.insertionSort fun a b => compare a b = true) :=
    List.sorted_insertionSort (fun a b : GenomeMatch => compare a b = true) l
  have hne : List.Pairwise (fun a b : GenomeMatch => a.genomeName ≠ b.genomeName)
      (l.insertionSort fun a b => compare a b = true) := by
    rw [List.Nodup, List.pairwise_map] at hnd2
    exact hnd2
  apply List.Pairwise.chain'
  refine (hs.and hne).imp ?_
  rintro a b ⟨h1, h2⟩
  rcases (compare_iff a b).1 h1 with h | ⟨h, hn⟩
  · exact Or.inl h
  · exact Or.inr ⟨h, lt_of_le_of_ne hn h2⟩

theorem keepRelated_names (n : Int) (t : ℚ) (recorder : UMap Nat)
    (hnd : (recorder.map Prod.fst).Nodup) :
    ((keepRelated n t recorder).map GenomeMatch.genomeName).Nodup := by
  refine List.Nodup.sublist ?_ hnd
  clear hnd
  induction recorder with
  | nil => simp [keepRelated]
  | cons p r ih =>
    simp only [keepRelated, List.filterMap_cons, List.map_cons] at ih ⊢
    split
    · exact List.Sublist.cons _ ih
    · rename_i x hx
      split at hx
      · cases hx
        simp only [List.map_cons]
        exact List.Sublist.cons₂ _ ih
      · cases hx

theorem mem_keepRelated (n : Int) (t : ℚ) (recorder : UMap Nat) (r : GenomeMatch) :
    r ∈ keepRelated n t recorder ↔ ∃ c, (r.genomeName, c) ∈ recorder ∧
      t ≤ (c : ℚ) / (n : ℚ) * 100 ∧ r.percentMatch = (c : ℚ) / (n : ℚ) * 100 := by
  simp only [keepRelated, List.mem_filterMap]
  constructor
  · rintro ⟨⟨name, c⟩, hp, he⟩
    simp only at he
    split at he
    · cases he
      rename_i hge
      exact ⟨c, hp, hge, rfl⟩
    · cases he
  · rintro ⟨c, hp, hge, he⟩
    refine ⟨(r.genomeName, c), hp, ?_⟩
    simp only
    rw [if_pos hge, ← he]

/-! ## Indexes with any `minSearchLength` -/

theorem mem_find_build (k : Int) (gs : List Genome) (key : Str) (e : Bool) (c : DNAMatch) :
    c ∈ (build k gs).trie.find key e ↔ ∃ g ∈ gs, ∃ i : Nat, (i : Int) + k ≤ g.length ∧
      c = { genomeName := g.name, length := g.length, position := i } ∧
      Trie.reach e true key ((g.genome.drop i).take k.toNat) = true := by
  rw [build_trie, (Trie.find_insertAll_perm _ _ _ _).mem_iff, Trie.find_empty]
  simp only [List.nil_append, List.mem_map, List.mem_filter, List.mem_flatMap, mem_windows]
  constructor
  · rintro ⟨p, ⟨⟨g, hg, i, hi, rfl⟩, hr⟩, rfl⟩
    exact ⟨g, hg, i, hi, rfl, hr⟩
  · rintro ⟨g, hg, i, hi, rfl, hr⟩
    exact ⟨_, ⟨⟨g, hg, i, hi, rfl⟩, hr⟩, rfl⟩

theorem lookup_found (k : Int) (gs : List Genome) (key : Str) (e : Bool) (c : DNAMatch)
    (hc : c ∈ (build k gs).trie.find key e) :
    (build k gs).genomes.find c.genomeName true ≠ [] := by
  obtain ⟨g, hg, i, _, rfl, _⟩ := (mem_find_build k gs key e c).1 hc
  rw [build_lookup]
  intro h
  have : g ∈ gs.filter fun x => x.name = g.name := by simp [hg]
  rw [h] at this
  simp at this

/-- When every candidate names a stored genome, the lookup is defined and returns
`hitsOver` of the trie candidates. -/
theorem findGenomes_general (m : GenomeMatcherImpl) (junk : Nat → Nat → Char) (f : Str) (ml : Int)
    (e : Bool)
    (hdef : ∀ c ∈ m.trie.find (searchKey m f) e, m.genomes.find c.genomeName true ≠ []) :
    findGenomesWithThisDNA m junk f ml e =
      if ml < 0 ∨ (f.length : Int) < ml ∨ ml < m.minSearchLen then some (false, [])
      else some (!(hitsOver m junk f ml e (m.trie.find (searchKey m f) e)).isEmpty,
        hitsOver m junk f ml e (m.trie.find (searchKey m f) e)) := by
  unfold findGenomesWithThisDNA
  simp only [minimumSearchLength]
  by_cases h1 : ml < 0 ∨ (f.length : Int) < ml
  · have : ml < 0 ∨ (f.length : Int) < ml ∨ ml < m.minSearchLen := by omega
    rw [if_pos h1, if_pos this]
  · rw [if_neg h1]
    by_cases h2 : ml < m.minSearchLen
    · have : ml < 0 ∨ (f.length : Int) < ml ∨ ml < m.minSearchLen := by omega
      rw [if_pos h2, if_pos this]
    · have : ¬ (ml < 0 ∨ (f.length : Int) < ml ∨ ml < m.minSearchLen) := by omega
      rw [if_neg h2, if_neg this]
      have hfold := foldlM_matchStep m junk f ml e (m.trie.find (searchKey m f) e).enum
        (fun c hc => hdef c.2 (List.snd_mem_of_mem_enum hc)) []
      simp only [searchKey, minimumSearchLength] at hfold
      simp only [hfold, hitsOver, searchKey, minimumSearchLength]

theorem findGenomes_defined (k : Int) (gs : List Genome) (junk : Nat → Nat → Char) (f : Str)
    (ml : Int) (e : Bool) :
    ∃ r, findGenomesWithThisDNA (build k gs) junk f ml e = some r := by
  rw [findGenomes_general _ _ _ _ _ (fun c hc => lookup_found k gs _ e c hc)]
  split <;> exact ⟨_, rfl⟩

theorem findGenomes_flag (m : GenomeMatcherImpl) (junk : Nat → Nat → Char) (f : Str) (ml : Int)
    (e : Bool) (r : Bool × List DNAMatch)
    (h : findGenomesWithThisDNA m junk f ml e = some r) : (r.1 = true ↔ r.2 ≠ []) := by
  unfold findGenomesWithThisDNA at h
  dsimp only at h
  repeat' split at h
  all_goals first
    | (cases h; done)
    | (cases h; simp)

theorem findRelated_flag (m : GenomeMatcherImpl) (junk : Nat → Nat → Nat → Char) (query : Genome)
    (L : Int) (e : Bool) (t : ℚ) (r : Bool × List GenomeMatch)
    (h : findRelatedGenomes m junk query L e t = some r) : (r.1 = true ↔ r.2 ≠ []) := by
  unfold findRelatedGenomes at h
  dsimp only at h
  repeat' split at h
  all_goals first
    | (cases h; done)
    | (cases h; simp)

theorem findRelated_defined (k : Int) (gs : List Genome) (junk : Nat → Nat → Nat → Char) (query : Genome)
    (L : Int) (e : Bool) (t : ℚ) (hL : L < k ∨ L ≠ 0) :
    ∃ r, findRelatedGenomes (build k gs) junk query L e t = some r := by
  unfold findRelatedGenomes
  simp only [minimumSearchLength, build_minSearchLen]
  by_cases h1 : L < k
  · rw [if_pos h1]; exact ⟨_, rfl⟩
  · have h0 : L ≠ 0 := by
      rcases hL with h | h
      · exact absurd h h1
      · exact h
    rw [if_neg h1, if_neg h0]
    obtain ⟨final, hf, _⟩ := foldlM_relatedStep (build k gs) junk query L e
      (List.range (Int.tdiv (query.length : Int) L).toNat)
      (fun i _ => findGenomes_defined k gs (junk i) _ L e) [] [] countInv_nil
    simp only [hf]
    exact ⟨_, rfl⟩

/-! ## Exact and approximate lookups compared -/

end GenomeMatcherImpl

/-! ## The claims -/

namespace Trie

variable {V : Type}

/-- C5: on a trie built by a sequence of `insert` calls, the approximate lookup of `key`
returns, as a multiset, exactly the values inserted under the keys of the same length
and the same first character that differ from `key` in at most one position, each
inserted value once. -/
theorem find_approx_insertAll (ops : List (Str × V)) (key : Str) :
    ((insertAll ops empty).find key false).Perm
      ((ops.filter fun p => oneOff key p.1).map fun p => p.2) := by
  have h := find_insertAll_perm ops (empty : Trie V) key false
  rw [find_empty, List.nil_append] at h
  refine h.trans (List.Perm.of_eq ?_)
  congr 1
  apply List.filter_congr
  intro p _
  exact reach_root key p.1

/-- C6: on a trie built by a sequence of `insert` calls from a new trie, the exact
lookup of any key (the empty key included) returns the values inserted with that key,
in insertion order, and nothing else; one more `insert` under `k` appends its value to
the exact lookup of `k` and leaves the exact lookup of every other key unchanged. -/
theorem find_exact_insertAll (ops : List (Str × V)) (key k : Str) (v : V) :
    (insertAll ops empty).find key true = ((ops.filter fun p => p.1 = key).map fun p => p.2) ∧
    ((insertAll ops empty).insert k v).find key true =
      (insertAll ops empty).find key true ++ if key = k then [v] else [] := by
  constructor
  · rw [find_insertAll_exact ops empty wf_empty key, find_empty, List.nil_append]
  · exact findNodes_insertNode_exact k v key true _ (wf_insertAll ops empty wf_empty)

/-- C7, as stated, fails: on the trie holding `1` under `"AB"`, the approximate lookup
of `"AB"` returns `[1]` while the descent of the specification returns `[1, 1]`. -/
theorem specDescent_counterexample :
    ((empty : Trie Nat).insert "AB".toList 1).find "AB".toList false = [1] ∧
    specDescent "AB".toList false true ((empty : Trie Nat).insert "AB".toList 1).root = [1, 1] ∧
    ((empty : Trie Nat).insert "AB".toList 1).find "AB".toList false ≠
      specDescent "AB".toList false true ((empty : Trie Nat).insert "AB".toList 1).root := by
  decide

/-- C7, amended: `find(key, exactOnly)` returns the same sequence of values as the
descent of the specification started at the root with `usedMismatch = exactOnly`, when
its second branch (descend with the flag set) is taken only for a child whose label is
not `k[0]`; for `exactOnly = true` it also equals the descent exactly as worded. -/
theorem find_eq_specDescentElse (t : Trie V) (key : Str) (exactOnly : Bool) :
    t.find key exactOnly = specDescentElse key exactOnly true t.root ∧
    t.find key true = specDescent key true true t.root :=
  ⟨(specDescentElse_eq key exactOnly true t.root).symm,
    (specDescent_exact key true t.root).symm⟩

end Trie

namespace GenomeMatcherImpl

/-- C1: on an index with `minSearchLength ≥ 1` built by `addGenome` from genomes with
distinct names, for a fragment `f` with `len(f) ≥ minSearchLength` whose first character
is not the string terminator, the exact lookup with `minimumLength = len(f)` is defined
and returns a hit for a genome `G` iff `f` occurs verbatim in `G`; the hit returned for
`G` has length `len(f)` and a position at which `G` reads `f`. -/
theorem exact_lookup_iff_occurs (k : Int) (hk : 1 ≤ k) (gs : List Genome)
    (hnd : (gs.map Genome.name).Nodup) (junk : Nat → Nat → Char) (f : Str)
    (hlen : k ≤ (f.length : Int)) (hnul : f.head? ≠ some (Char.ofNat 0)) :
    ∃ ok hits, findGenomesWithThisDNA (build k gs) junk f (f.length : Int) true =
        some (ok, hits) ∧
      ∀ G ∈ gs,
        ((∃ h ∈ hits, h.genomeName = G.name) ↔
          ∃ p, p + f.length ≤ G.length ∧ (G.genome.drop p).take f.length = f) ∧
        ∀ h ∈ hits, h.genomeName = G.name →
          h.length = f.length ∧ h.position + f.length ≤ G.length ∧
            (G.genome.drop h.position).take f.length = f := by
  have hml : (1 : Int) ≤ (f.length : Int) := by omega
  have hf : f ≠ [] := by
    intro h; rw [h] at hml; simp at hml
  rw [findGenomes_build k hk]
  rw [if_neg (by omega)]
  refine ⟨_, _, rfl, ?_⟩
  obtain ⟨recorder, hrec, _, h2, h3⟩ := bestHits_inv (build k gs) junk f f.length true hml
  rw [hrec]
  intro G hG
  have hits : ∀ h ∈ recorder.map Prod.snd, h.genomeName = G.name →
      h.length = f.length ∧ h.position + f.length ≤ G.length ∧
        (G.genome.drop h.position).take f.length = f := by
    intro h hh hname
    obtain ⟨p, hp, rfl⟩ := List.mem_map.1 hh
    obtain ⟨_, c, _, hc2, hc3, hc4, hc5⟩ := h2 p hp
    rw [scoreOf_build k gs hnd junk f _ true G hG c (by rw [hc2, hname])] at hc4 hc5
    have hle := confirm_le (junk c.1) f (f.length : Int) true G c.2.position
    have hge := (confirm_push (junk c.1) f (f.length : Int) true G c.2.position hml).1 hc5
    have hfull : (confirm (junk c.1) f (f.length : Int) true G c.2.position).1 =
        f.length := by omega
    have := (confirm_exact_iff (junk c.1) f _ G c.2.position hf hnul).1 hfull
    rw [hc3] at this
    exact ⟨by rw [hc4, hfull], this.1, this.2⟩
  refine ⟨⟨?_, ?_⟩, hits⟩
  · rintro ⟨h, hh, hname⟩
    obtain ⟨_, h5, h6⟩ := hits h hh hname
    exact ⟨h.position, h5, h6⟩
  · rintro ⟨p, hp, hslice⟩
    have hcand : ({ genomeName := G.name, length := G.length, position := p } : DNAMatch) ∈
        candidates (build k gs) f true := by
      rw [mem_candidates_build]
      refine ⟨G, hG, p, ?_, rfl, ?_⟩
      · have : ((p + f.length : Nat) : Int) ≤ (G.length : Int) := by exact_mod_cast hp
        push_cast at this; omega
      · rw [Trie.reach_exact, decide_eq_true_eq]
        conv_lhs => rw [← hslice]
        rw [List.take_take, min_eq_left (by omega)]
    obtain ⟨i, hi⟩ := mem_enum_of_mem _ _ hcand
    have hfull : (confirm (junk i) f (f.length : Int) true G p).1 = f.length :=
      (confirm_exact_iff (junk i) f _ G p hf hnul).2 ⟨hp, hslice⟩
    have hpush : (confirm (junk i) f (f.length : Int) true G p).2 = true :=
      (confirm_push (junk i) f _ true G p hml).2 (by rw [hfull])
    have hsc := scoreOf_build k gs hnd junk f (f.length : Int) true G hG
      (i, ({ genomeName := G.name, length := G.length, position := p } : DNAMatch)) rfl
    obtain ⟨q, hq, hq1, _⟩ := h3 _ hi (by rw [hsc]; exact hpush)
    exact ⟨q.2, List.mem_map_of_mem _ hq, by rw [← (h2 q hq).1, hq1]⟩

/-- C2: on an index with `minSearchLength ≥ 1` built from genomes with distinct names,
if the fragment `f` (`len(f) ≥ minSearchLength`) agrees with the window of the indexed
genome `G` at `p .. p + len(f)` everywhere except exactly one position `kk ≠ 0`, the
approximate lookup with `minimumLength = len(f)` succeeds and returns a hit for `G`
with confirmed length `len(f)` and a position `≤ p`. -/
theorem approx_lookup_finds (k : Int) (hk : 1 ≤ k) (gs : List Genome)
    (hnd : (gs.map Genome.name).Nodup) (junk : Nat → Nat → Char) (G : Genome) (hG : G ∈ gs)
    (p : Nat) (f : Str) (hlen : k ≤ (f.length : Int)) (hp : p + f.length ≤ G.length)
    (kk : Nat) (hkk : kk ≠ 0) (hkf : kk < f.length)
    (hdiff : ∀ i, i < f.length → (f[i]? = G.genome[p + i]? ↔ i ≠ kk)) :
    ∃ hits, findGenomesWithThisDNA (build k gs) junk f (f.length : Int) false =
        some (true, hits) ∧
      ∃ h ∈ hits, h.genomeName = G.name ∧ h.length = f.length ∧ h.position ≤ p := by
  have hml : (1 : Int) ≤ (f.length : Int) := by omega
  rw [findGenomes_build k hk]
  rw [if_neg (by omega)]
  obtain ⟨recorder, hrec, _, h2, h3⟩ := bestHits_inv (build k gs) junk f f.length false hml
  have hpk : p + k.toNat ≤ G.genome.length := by
    have : k.toNat ≤ f.length := by omega
    simp only [Genome.length] at hp; omega
  have hcand : ({ genomeName := G.name, length := G.length, position := p } : DNAMatch) ∈
      candidates (build k gs) f false := by
    rw [mem_candidates_build]
    refine ⟨G, hG, p, ?_, rfl, ?_⟩
    · simp only [Genome.length]; omega
    · apply reach_root_pointwise _ _ kk hkk
      · simp only [List.length_take, List.length_drop]; omega
      · intro i hi hne
        simp only [List.length_take] at hi
        rw [List.getElem?_take, List.getElem?_take, if_pos (by omega), if_pos (by omega),
          List.getElem?_drop]
        exact (hdiff i (by omega)).2 hne
  obtain ⟨i0, hi0⟩ := mem_enum_of_mem _ _ hcand
  have hfull : (confirm (junk i0) f (f.length : Int) false G p).1 = f.length :=
    confirm_approx_full (junk i0) f _ G p kk hp (fun i hi hne => (hdiff i hi).2 hne)
  have hpush : (confirm (junk i0) f (f.length : Int) false G p).2 = true :=
    (confirm_push (junk i0) f _ false G p hml).2 (by rw [hfull])
  have hsc := scoreOf_build k gs hnd junk f (f.length : Int) false G hG
    (i0, ({ genomeName := G.name, length := G.length, position := p } : DNAMatch)) rfl
  obtain ⟨q, hq, hq1, hq2⟩ := h3 _ hi0 (by rw [hsc]; exact hpush)
  rw [hsc, hfull] at hq2
  have hqle : q.2.length ≤ f.length := by
    obtain ⟨_, c, _, _, _, hc4, _⟩ := h2 q hq
    rw [hc4]; exact scoreOf_le _ _ _ _ _ _
  have hmem : q.2 ∈ bestHits (build k gs) junk f (f.length : Int) false := by
    rw [hrec]; exact List.mem_map_of_mem _ hq
  refine ⟨_, ?_, q.2, hmem, by rw [← (h2 q hq).1, hq1], ?_, ?_⟩
  · have hne : bestHits (build k gs) junk f (f.length : Int) false ≠ [] :=
      List.ne_nil_of_mem hmem
    cases hb : bestHits (build k gs) junk f (f.length : Int) false with
    | nil => exact absurd hb hne
    | cons a l => rfl
  · omega
  · simp only at hq2; omega

/-- C3: a mismatch at index 0 is never found. On an index with `minSearchLength ≥ 1`
built from genomes with distinct names, every call of `findGenomesWithThisDNA`, with
either value of `exactMatchOnly`, is defined, and every hit `(G, p)` it returns has
`f[0]` equal to `G`'s sequence at `p`. -/
theorem first_symbol_matches (k : Int) (hk : 1 ≤ k) (gs : List Genome)
    (hnd : (gs.map Genome.name).Nodup) (junk : Nat → Nat → Char) (f : Str) (minimumLength : Int)
    (exactMatchOnly : Bool) :
    ∃ ok hits, findGenomesWithThisDNA (build k gs) junk f minimumLength exactMatchOnly =
        some (ok, hits) ∧
      ∀ h ∈ hits, ∀ G ∈ gs, G.name = h.genomeName →
        ∃ ch, f[0]? = some ch ∧ G.genome[h.position]? = some ch := by
  rw [findGenomes_build k hk]
  by_cases hpre : minimumLength < 0 ∨ (f.length : Int) < minimumLength ∨ minimumLength < k
  · rw [if_pos hpre]
    exact ⟨_, _, rfl, by simp⟩
  · rw [if_neg hpre]
    refine ⟨_, _, rfl, ?_⟩
    have hml : (1 : Int) ≤ minimumLength := by omega
    obtain ⟨recorder, hrec, _, h2, _⟩ :=
      bestHits_inv (build k gs) junk f minimumLength exactMatchOnly hml
    rw [hrec]
    intro h hh G hG hname
    obtain ⟨q, hq, rfl⟩ := List.mem_map.1 hh
    obtain ⟨_, ⟨ci, c⟩, hc1, hc2, hc3, _, _⟩ := h2 q hq
    obtain ⟨g, hg, i, hi, rfl, hr⟩ := (mem_candidates_build k gs f exactMatchOnly c).1
      (List.snd_mem_of_mem_enum hc1)
    have hgG : g = G := name_inj gs hnd g G hg hG (by rw [hname, ← hc2])
    subst hgG
    simp only at hc3
    have hik : i + k.toNat ≤ g.genome.length := by simp only [Genome.length] at hi; omega
    have hhead := reach_head exactMatchOnly _ _ (by
        intro h0
        have := congrArg List.length h0
        simp only [List.length_take, List.length_nil] at this; omega) (by
        intro h0
        have := congrArg List.length h0
        simp only [List.length_take, List.length_drop, List.length_nil] at this; omega) hr
    rw [List.getElem?_take, List.getElem?_take, if_pos (by omega), if_pos (by omega),
      List.getElem?_drop, Nat.add_zero] at hhead
    have hi2 : i < g.genome.length := by omega
    refine ⟨g.genome[i], ?_, ?_⟩
    · rw [hhead, List.getElem?_eq_getElem hi2]
    · rw [← hc3, List.getElem?_eq_getElem hi2]

/-- C10: on an index with `minSearchLength = k ≥ 1` built by `addGenome`, after one more
`addGenome(g)` with `n = g.length()` the exact lookup of any key `w` in the fragment
trie returns what it returned before, followed by the hits
`{genomeName: g.name, position: i, length: n}` for the `i` in ascending order with
`0 ≤ i ≤ n - k` and `g`'s sequence at `i .. i + k` equal to `w`; when `n < k` the
fragment trie is unchanged. -/
theorem addGenome_exact_lookup (k : Int) (hk : 1 ≤ k) (gs : List Genome) (g : Genome)
    (w : Str) :
    ((build k gs).addGenome g).trie.find w true =
      (build k gs).trie.find w true ++
        ((List.range (g.length + 1)).filter fun (i : Nat) =>
            decide ((i : Int) ≤ (g.length : Int) - k) &&
              decide ((g.genome.drop i).take k.toNat = w)).map
          (fun i => ({ genomeName := g.name, length := g.length, position := i } : DNAMatch)) ∧
    ((g.length : Int) < k → ((build k gs).addGenome g).trie = (build k gs).trie) := by
  constructor
  · have hwf : (build k gs).trie.root.WF := by
      rw [build_trie]; exact Trie.wf_insertAll _ _ Trie.wf_empty
    rw [addGenome_trie, build_minSearchLen, Trie.find_insertAll_exact _ _ hwf]
    congr 1
    simp only [windows, List.filter_map, List.map_map]
    have hm : ((g.length : Int) - k + 1).toNat ≤ g.length + 1 := by omega
    rw [← filter_range_le _ _ (g.length + 1) hm]
    congr 1
    apply List.filter_congr
    intro i _
    have : (i < ((g.length : Int) - k + 1).toNat) ↔ ((i : Int) ≤ (g.length : Int) - k) := by
      omega
    simp [this]
  · intro hlt
    rw [addGenome_trie, build_minSearchLen]
    have : ((g.length : Int) - k + 1).toNat = 0 := by omega
    simp [windows, this, Trie.insertAll]

/-- C8: on an index with `minSearchLength ≥ 1` built by `addGenome`, a call
`findRelatedGenomes(query, L, exactMatchOnly, t)` with `L ≥ minSearchLength` is defined,
and with exact arithmetic a genome name appears in the result iff `hits ≥ 1` and
`100 * hits / numFragments ≥ t`, where `hits` counts the indices `i < numFragments`
for which the lookup of `query[i*L .. (i+1)*L)` returns a hit of that name; its
`percentMatch` is `100 * hits / numFragments`, so a percentage equal to `t` is kept. -/
theorem related_iff_threshold (k : Int) (hk : 1 ≤ k) (gs : List Genome) (junk : Nat → Nat → Nat → Char)
    (query : Genome) (L : Nat) (hL : k ≤ (L : Int)) (exactMatchOnly : Bool) (t : ℚ) :
    ∃ ok res, findRelatedGenomes (build k gs) junk query (L : Int) exactMatchOnly t =
        some (ok, res) ∧
      ∀ name : Str,
        ((∃ r ∈ res, r.genomeName = name) ↔
          (1 ≤ hitCount (build k gs) junk query L exactMatchOnly name ∧
            t ≤ 100 * (hitCount (build k gs) junk query L exactMatchOnly name : ℚ) /
              ((query.length / L : Nat) : ℚ))) ∧
        ∀ r ∈ res, r.genomeName = name →
          r.percentMatch =
            100 * (hitCount (build k gs) junk query L exactMatchOnly name : ℚ) /
              ((query.length / L : Nat) : ℚ) := by
  obtain ⟨recorder, hres, _, hm⟩ := related_build k hk gs junk query L hL exactMatchOnly t
  refine ⟨_, _, hres, ?_⟩
  have hpct : ∀ c : Nat, (c : ℚ) / (((query.length / L : Nat) : Int) : ℚ) * 100 =
      100 * (c : ℚ) / ((query.length / L : Nat) : ℚ) := by
    intro c
    rw [Int.cast_natCast]; ring
  have hmem : ∀ r : GenomeMatch,
      r ∈ (keepRelated ((query.length / L : Nat) : Int) t recorder).insertionSort
          (fun a b => compare a b = true) ↔
        (1 ≤ hitCount (build k gs) junk query L exactMatchOnly r.genomeName ∧
          t ≤ 100 * (hitCount (build k gs) junk query L exactMatchOnly r.genomeName : ℚ) /
            ((query.length / L : Nat) : ℚ) ∧
          r.percentMatch =
            100 * (hitCount (build k gs) junk query L exactMatchOnly r.genomeName : ℚ) /
              ((query.length / L : Nat) : ℚ)) := by
    intro r
    rw [(List.perm_insertionSort _ _).mem_iff, mem_keepRelated]
    constructor
    · rintro ⟨c, hc, hge, hp⟩
      obtain ⟨rfl, h1⟩ := (hm _ _).1 hc
      rw [hpct] at hge hp
      exact ⟨h1, hge, hp⟩
    · rintro ⟨h1, hge, hp⟩
      refine ⟨_, (hm _ _).2 ⟨rfl, h1⟩, ?_, ?_⟩
      · rw [hpct]; exact hge
      · rw [hpct]; exact hp
  intro name
  constructor
  · constructor
    · rintro ⟨r, hr, rfl⟩
      obtain ⟨h1, h2, _⟩ := (hmem r).1 hr
      exact ⟨h1, h2⟩
    · rintro ⟨h1, h2⟩
      exact ⟨⟨name, 100 * (hitCount (build k gs) junk query L exactMatchOnly name : ℚ) /
          ((query.length / L : Nat) : ℚ)⟩, (hmem _).2 ⟨h1, h2, rfl⟩, rfl⟩
  · rintro r hr rfl
    exact ((hmem r).1 hr).2.2

/-- C9: on an index with `minSearchLength ≥ 1` built by `addGenome`, every call of
`findRelatedGenomes` is defined and returns a list with pairwise distinct genome names
that is sorted: of two adjacent entries `a`, `b`, either `a.percentMatch` is greater,
or the percentages are equal and `a.genomeName < b.genomeName` lexicographically. -/
theorem related_sorted (k : Int) (hk : 1 ≤ k) (gs : List Genome) (junk : Nat → Nat → Nat → Char)
    (query : Genome) (fragmentMatchLength : Int) (exactMatchOnly : Bool) (t : ℚ) :
    ∃ ok res, findRelatedGenomes (build k gs) junk query fragmentMatchLength
        exactMatchOnly t = some (ok, res) ∧
      (res.map GenomeMatch.genomeName).Nodup ∧
      List.Chain' (fun a b : GenomeMatch => a.percentMatch > b.percentMatch ∨
        (a.percentMatch = b.percentMatch ∧ a.genomeName < b.genomeName)) res := by
  by_cases hL : fragmentMatchLength < k
  · refine ⟨false, [], ?_, by simp, by simp⟩
    simp [findRelatedGenomes, minimumSearchLength, build_minSearchLen, hL]
  · obtain ⟨L, rfl⟩ : ∃ L : Nat, fragmentMatchLength = (L : Int) :=
      ⟨fragmentMatchLength.toNat, by omega⟩
    obtain ⟨recorder, hres, hnd, _⟩ :=
      related_build k hk gs junk query L (by omega) exactMatchOnly t
    have := sorted_related _ (keepRelated_names ((query.length / L : Nat) : Int) t recorder hnd)
    exact ⟨_, _, hres, this.1, this.2⟩

/-- C1 at the scenario: `"ACGT"` is looked up exactly in the index of `A` and `B`. -/
theorem exact_lookup_iff_occurs_witness :
    ((1 : Int) ≤ 4 ∧ (([scenarioA, scenarioB] : List Genome).map Genome.name).Nodup ∧
      (4 : Int) ≤ (scenarioExact.length : Int) ∧
      scenarioExact.head? ≠ some (Char.ofNat 0)) ∧
    ∃ ok hits, findGenomesWithThisDNA (build 4 [scenarioA, scenarioB]) scenarioJunk
        scenarioExact (scenarioExact.length : Int) true = some (ok, hits) ∧
      ∀ G ∈ [scenarioA, scenarioB],
        ((∃ h ∈ hits, h.genomeName = G.name) ↔
          ∃ p, p + scenarioExact.length ≤ G.length ∧
            (G.genome.drop p).take scenarioExact.length = scenarioExact) ∧
        ∀ h ∈ hits, h.genomeName = G.name →
          h.length = scenarioExact.length ∧ h.position + scenarioExact.length ≤ G.length ∧
            (G.genome.drop h.position).take scenarioExact.length = scenarioExact :=
  ⟨⟨by decide, by decide, by decide, by decide⟩,
    exact_lookup_iff_occurs 4 (by decide) [scenarioA, scenarioB] (by decide) scenarioJunk
      scenarioExact (by decide) (by decide)⟩

/-- C2 at the scenario: `"ACTT"` differs from the window of `A` at 0 in position 2. -/
theorem approx_lookup_finds_witness :
    ((1 : Int) ≤ 4 ∧ (([scenarioA, scenarioB] : List Genome).map Genome.name).Nodup ∧
      scenarioA ∈ [scenarioA, scenarioB] ∧ (4 : Int) ≤ (scenarioApprox.length : Int) ∧
      0 + scenarioApprox.length ≤ scenarioA.length ∧ 2 ≠ 0 ∧ 2 < scenarioApprox.length ∧
      ∀ i, i < scenarioApprox.length →
        (scenarioApprox[i]? = scenarioA.genome[0 + i]? ↔ i ≠ 2)) ∧
    ∃ hits, findGenomesWithThisDNA (build 4 [scenarioA, scenarioB]) scenarioJunk
        scenarioApprox (scenarioApprox.length : Int) false = some (true, hits) ∧
      ∃ h ∈ hits, h.genomeName = scenarioA.name ∧ h.length = scenarioApprox.length ∧
        h.position ≤ 0 :=
  ⟨⟨by decide, by decide, by decide, by decide, by decide, by decide, by decide, by decide⟩,
    approx_lookup_finds 4 (by decide) [scenarioA, scenarioB] (by decide) scenarioJunk
      scenarioA (by decide) 0 scenarioApprox (by decide) (by decide) 2 (by decide)
      (by decide) (by decide)⟩

/-- C3 at the scenario: the approximate lookup of `"ACTT"` with `minimumLength = 4`. -/
theorem first_symbol_matches_witness :
    ((1 : Int) ≤ 4 ∧ (([scenarioA, scenarioB] : List Genome).map Genome.name).Nodup) ∧
    ∃ ok hits, findGenomesWithThisDNA (build 4 [scenarioA, scenarioB]) scenarioJunk
        scenarioApprox 4 false = some (ok, hits) ∧
      ∀ h ∈ hits, ∀ G ∈ [scenarioA, scenarioB], G.name = h.genomeName →
        ∃ ch, scenarioApprox[0]? = some ch ∧ G.genome[h.position]? = some ch :=
  ⟨⟨by decide, by decide⟩,
    first_symbol_matches 4 (by decide) [scenarioA, scenarioB] (by decide) scenarioJunk
      scenarioApprox 4 false⟩

/-- C8 at the scenario: genome `A` as the query, in fragments of length 4, threshold 50. -/
theorem related_iff_threshold_witness :
    ((1 : Int) ≤ 4 ∧ (4 : Int) ≤ ((4 : Nat) : Int)) ∧
    ∃ ok res, findRelatedGenomes (build 4 [scenarioA, scenarioB]) scenarioJunks scenarioA
        ((4 : Nat) : Int) true 50 = some (ok, res) ∧
      ∀ name : Str,
        ((∃ r ∈ res, r.genomeName = name) ↔
          (1 ≤ hitCount (build 4 [scenarioA, scenarioB]) scenarioJunks scenarioA 4 true name ∧
            (50 : ℚ) ≤ 100 * (hitCount (build 4 [scenarioA, scenarioB]) scenarioJunks
                scenarioA 4 true name : ℚ) / ((scenarioA.length / 4 : Nat) : ℚ))) ∧
        ∀ r ∈ res, r.genomeName = name →
          r.percentMatch =
            100 * (hitCount (build 4 [scenarioA, scenarioB]) scenarioJunks scenarioA 4 true
                name : ℚ) / ((scenarioA.length / 4 : Nat) : ℚ) :=
  ⟨⟨by decide, by decide⟩,
    related_iff_threshold 4 (by decide) [scenarioA, scenarioB] scenarioJunks scenarioA 4
      (by decide) true 50⟩

/-- C9 at the scenario: genome `A` as the query, in fragments of length 4, threshold 50. -/
theorem related_sorted_witness :
    (1 : Int) ≤ 4 ∧
    ∃ ok res, findRelatedGenomes (build 4 [scenarioA, scenarioB]) scenarioJunks scenarioA 4
        true 50 = some (ok, res) ∧
      (res.map GenomeMatch.genomeName).Nodup ∧
      List.Chain' (fun a b : GenomeMatch => a.percentMatch > b.percentMatch ∨
        (a.percentMatch = b.percentMatch ∧ a.genomeName < b.genomeName)) res :=
  ⟨by decide,
    related_sorted 4 (by decide) [scenarioA, scenarioB] scenarioJunks scenarioA 4 true 50⟩

/-- C10 at the scenario: `B` is added to the index of `A`, and `"ACGT"` is looked up. -/
theorem addGenome_exact_lookup_witness :
    (1 : Int) ≤ 4 ∧
    (((build 4 [scenarioA]).addGenome scenarioB).trie.find scenarioExact true =
      (build 4 [scenarioA]).trie.find scenarioExact true ++
        ((List.range (scenarioB.length + 1)).filter fun (i : Nat) =>
            decide ((i : Int) ≤ (scenarioB.length : Int) - 4) &&
              decide ((scenarioB.genome.drop i).take (4 : Int).toNat = scenarioExact)).map
          (fun i =>
            (⟨scenarioB.name, scenarioB.length, i⟩ : DNAMatch)) ∧
    ((scenarioB.length : Int) < 4 →
      ((build 4 [scenarioA]).addGenome scenarioB).trie = (build 4 [scenarioA]).trie)) :=
  ⟨by decide, addGenome_exact_lookup 4 (by decide) [scenarioA] scenarioB scenarioExact⟩

/-- C12: for every index and every call of `findGenomesWithThisDNA`, a call that
returns reports success iff its output list is non-empty; when
`len(f) < minimumLength` or `minimumLength < minSearchLength` it reports failure with an
empty list (the output never depends on what `matches` held before, which is cleared
first); and on every index built by `addGenome` the call does return. -/
theorem lookup_flag_and_preconditions (m : GenomeMatcherImpl) (k : Int) (gs : List Genome)
    (junk : Nat → Nat → Char) (f : Str) (minimumLength : Int) (exactMatchOnly : Bool) :
    ((f.length : Int) < minimumLength ∨ minimumLength < m.minimumSearchLength →
      findGenomesWithThisDNA m junk f minimumLength exactMatchOnly = some (false, [])) ∧
    (∀ r, findGenomesWithThisDNA m junk f minimumLength exactMatchOnly = some r →
      (r.1 = true ↔ r.2 ≠ [])) ∧
    (∃ r, findGenomesWithThisDNA (build k gs) junk f minimumLength exactMatchOnly =
      some r) := by
  refine ⟨?_, fun r h => findGenomes_flag m junk f minimumLength exactMatchOnly r h,
    findGenomes_defined k gs junk f minimumLength exactMatchOnly⟩
  intro h
  unfold findGenomesWithThisDNA
  by_cases h1 : minimumLength < 0 ∨ (f.length : Int) < minimumLength
  · rw [if_pos h1]
  · rw [if_neg h1]
    have h2 : minimumLength < m.minimumSearchLength := by
      rcases h with h | h
      · exact absurd (Or.inr h) h1
      · exact h
    rw [if_pos h2]

/-- C12 at the scenario: the fragment `"ACGT"` with `minimumLength = 5`. -/
theorem lookup_flag_and_preconditions_witness :
    findGenomesWithThisDNA (build 4 [scenarioA, scenarioB]) scenarioJunk scenarioExact 5 true =
      some (false, []) :=
  (lookup_flag_and_preconditions (build 4 [scenarioA, scenarioB]) 4 [scenarioA, scenarioB]
    scenarioJunk scenarioExact 5 true).1 (Or.inl (by decide))

/-- C13: the call `findRelatedGenomes(query, 0, exactMatchOnly, t, results)` on a matcher
created with `minSearchLength = 0` has no result, whatever genomes were added and
whatever the query. The first check `0 < 0` lets the call through and
`query.length() / fragmentMatchLength` divides by zero, so the call neither reports
failure with an empty list nor success. -/
theorem related_zero_length_undefined (gs : List Genome) (junk : Nat → Nat → Nat → Char)
    (query : Genome) (exactMatchOnly : Bool) (t : ℚ) :
    findRelatedGenomes (build 0 gs) junk query 0 exactMatchOnly t = none := by
  simp [findRelatedGenomes, minimumSearchLength, build_minSearchLen]

/-- Away from the division by zero: for every matcher state and every call of
`findRelatedGenomes`, a call that returns reports success iff its output list is
non-empty; it reports failure with an empty list when `L < minSearchLength`, and when
`L ≠ 0` and `floor(len(query)/L)` is zero; on every index built by `addGenome` the call
returns unless `L = 0` passes the first check. -/
theorem related_flag_away_from_zero (m : GenomeMatcherImpl) (k : Int) (gs : List Genome)
    (junk : Nat → Nat → Nat → Char) (query : Genome) (L : Int) (exactMatchOnly : Bool) (t : ℚ) :
    (L < m.minimumSearchLength →
      findRelatedGenomes m junk query L exactMatchOnly t = some (false, [])) ∧
    (L ≠ 0 → Int.fdiv (query.length : Int) L = 0 →
      findRelatedGenomes m junk query L exactMatchOnly t = some (false, [])) ∧
    (∀ r, findRelatedGenomes m junk query L exactMatchOnly t = some r →
      (r.1 = true ↔ r.2 ≠ [])) ∧
    (L < k ∨ L ≠ 0 →
      ∃ r, findRelatedGenomes (build k gs) junk query L exactMatchOnly t = some r) := by
  refine ⟨?_, ?_, fun r h => findRelated_flag m junk query L exactMatchOnly t r h,
    fun h => findRelated_defined k gs junk query L exactMatchOnly t h⟩
  · intro h
    unfold findRelatedGenomes
    rw [if_pos h]
  · intro h0 hz
    unfold findRelatedGenomes
    by_cases h1 : L < m.minimumSearchLength
    · rw [if_pos h1]
    · rw [if_neg h1, if_neg h0]
      have hn : (Int.tdiv (query.length : Int) L).toNat = 0 := by
        rcases lt_or_gt_of_ne h0 with hneg | hpos
        · have := Int.tdiv_nonpos (Int.ofNat_nonneg query.length) (le_of_lt hneg)
          omega
        · rw [Int.fdiv_eq_ediv _ (le_of_lt hpos)] at hz
          rw [Int.tdiv_eq_ediv (Int.ofNat_nonneg _) (le_of_lt hpos), hz]
          rfl
      simp only [hn, List.range_zero, List.foldlM_nil]
      rfl

/-- The query `A` (length 8) in fragments of length 9 has no fragment: failure. -/
theorem related_flag_away_from_zero_witness :
    findRelatedGenomes (build 4 [scenarioA, scenarioB]) scenarioJunks scenarioA 9 true 50 =
      some (false, []) :=
  (related_flag_away_from_zero (build 4 [scenarioA, scenarioB]) 4 [scenarioA, scenarioB]
    scenarioJunks scenarioA 9 true 50).2.1 (by decide) (by decide)

end GenomeMatcherImpl

namespace Genome

/-- C14, as stated, fails: on the genome `"A"`, `extract(5, 0, out)` succeeds and sets
`out` to the empty string although `5 + 0` exceeds the length 1; and
`extract(INT_MAX, 1, out)`, whose bound `INT_MAX + 1` wraps, does the same. -/
theorem extract_counterexample :
    5 + 0 > shortGenome.length ∧
    shortGenome.extract 5 0 "old".toList = (true, []) ∧
    shortGenome.extract 2147483647 1 "old".toList = (true, []) := by
  decide

/-- C14, amended: for every genome `X` and all non-negative `int`s `P` and `L` whose sum
is at most `INT_MAX`, `extract(P, L, out)` fails, leaving `out` unchanged, whenever
`L ≥ 1` and `P + L` exceeds `X`'s length, and otherwise (`P + L` within the length, or
`L = 0`) succeeds and sets `out` to exactly the `L` symbols of `X`'s sequence starting
at `P`. -/
theorem extract_spec (X : Genome) (P L : Nat) (out : Str)
    (hsum : (P : Int) + (L : Int) ≤ intMax) :
    X.extract P (L : Int) out =
      if L = 0 ∨ P + L ≤ X.length then (true, (X.genome.drop P).take L)
      else (false, out) := by
  have hw : ¬ ((P : Int) + (L : Int) > intMax) := not_lt.2 hsum
  simp only [extract, extractRounds, if_neg hw, extractLoop_eq, Int.toNat_ofNat,
    List.nil_append, length]
  by_cases h : L = 0 ∨ P + L ≤ X.genome.length
  · rw [if_pos h, if_pos h]
  · rw [if_neg h, if_neg h]

/-- C14 at the scenario: two symbols of `A` from position 6, and three from position 6,
which overrun. -/
theorem extract_spec_witness :
    scenarioA.extract 6 ((2 : Nat) : Int) "old".toList =
      (if 2 = 0 ∨ 6 + 2 ≤ scenarioA.length then
        (true, (scenarioA.genome.drop 6).take 2) else (false, "old".toList)) ∧
    scenarioA.extract 6 ((3 : Nat) : Int) "old".toList =
      (if 3 = 0 ∨ 6 + 3 ≤ scenarioA.length then
        (true, (scenarioA.genome.drop 6).take 3) else (false, "old".toList)) :=
  ⟨extract_spec scenarioA 6 2 "old".toList (by decide),
    extract_spec scenarioA 6 3 "old".toList (by decide)⟩

end Genome

namespace Trie

variable {V : Type}

/-- C16: in every trie reached from the empty trie by a sequence of `insert` and
`reset` calls no node has two children with the same label, and `insert` preserves this
invariant on any trie. -/
theorem label_invariant (ops : List (TrieOp V)) (t : Trie V) (key : Str) (v : V) :
    (applyOps ops empty).root.WF ∧ (t.root.WF → (t.insert key v).root.WF) := by
  refine ⟨?_, fun h => wf_insertNode key v _ h⟩
  have : ∀ (ops : List (TrieOp V)) (t : Trie V), t.root.WF → (applyOps ops t).root.WF := by
    intro ops
    induction ops with
    | nil => intro t h; exact h
    | cons op ops ih =>
      intro t h
      apply ih
      cases op with
      | insert key value => exact wf_insertNode key value _ h
      | reset => exact wf_empty
  exact this ops empty wf_empty

/-- C16 at a trie holding `"AB"`, into which `"AC"` is inserted. -/
theorem label_invariant_witness :
    (((empty : Trie Nat).insert "AB".toList 1).insert "AC".toList 2).root.WF :=
  (label_invariant ([] : List (TrieOp Nat)) ((empty : Trie Nat).insert "AB".toList 1)
    "AC".toList 2).2 (wf_insertNode _ _ _ wf_empty)

end Trie

namespace GenomeMatcherImpl

/-- C20: on every index built by `addGenome` calls from a new matcher, every candidate
that the fragment trie returns for the key of a `findGenomesWithThisDNA` call names a
stored genome: the exact lookup of its `genomeName` in the genome store is non-empty,
so `[0]` is in range and the call returns. -/
theorem candidate_genome_stored (k : Int) (gs : List Genome) (junk : Nat → Nat → Char) (f : Str)
    (minimumLength : Int) (exactMatchOnly : Bool) :
    (∀ c ∈ (build k gs).trie.find (searchKey (build k gs) f) exactMatchOnly,
      (build k gs).genomes.find c.genomeName true ≠ []) ∧
    ∃ r, findGenomesWithThisDNA (build k gs) junk f minimumLength exactMatchOnly = some r :=
  ⟨fun c hc => lookup_found k gs _ exactMatchOnly c hc,
    findGenomes_defined k gs junk f minimumLength exactMatchOnly⟩

/-- C20 at the scenario: the candidate of `A` at position 0 for the key `"ACGT"`. -/
theorem candidate_genome_stored_witness :
    (build 4 [scenarioA, scenarioB]).genomes.find
      ({ genomeName := scenarioA.name, length := 8, position := 0 } : DNAMatch).genomeName
      true ≠ [] :=
  (candidate_genome_stored 4 [scenarioA, scenarioB] scenarioJunk scenarioExact 4 true).1
    { genomeName := scenarioA.name, length := 8, position := 0 } (by decide)

/-- C11 fails on the code: with `minSearchLength = 1`, the genome `"A"` and the
approximate lookup of `"AC"` with `minimumLength = 1`, the only trie candidate has
`0 + len(f) = 2 > 1`; it is not skipped: whatever the memory past the empty `comp`
holds in any round, the call succeeds and returns this candidate as the hit of its genome. -/
theorem overrun_candidate_recorded (junk : Nat → Nat → Char) :
    0 + "AC".toList.length > shortGenome.length ∧
    (build 1 [shortGenome]).trie.find (searchKey (build 1 [shortGenome]) "AC".toList) false =
      [⟨"G".toList, 1, 0⟩] ∧
    findGenomesWithThisDNA (build 1 [shortGenome]) junk "AC".toList 1 false =
      some (true, [⟨"G".toList, if 'C' = junk 0 1 then 2 else 1, 0⟩]) := by
  have hc : (build 1 [shortGenome]).trie.find
      (searchKey (build 1 [shortGenome]) "AC".toList) false = [⟨"G".toList, 1, 0⟩] := by
    decide
  refine ⟨by decide, hc, ?_⟩
  have hl : (build 1 [shortGenome]).genomes.find "G".toList true = [shortGenome] := by
    decide
  have hx : (shortGenome.extract 0 ("AC".toList.length : Int) []).2 = [] := by decide
  rw [findGenomes_general _ _ _ _ _ (fun c h => lookup_found 1 [shortGenome] _ false c h),
    if_neg (by decide), hc]
  simp only [hitsOver, List.enum, List.enumFrom, List.foldl_cons, List.foldl_nil, scoreOf,
    hl, List.head?_cons, confirm, hx]
  by_cases hj : 'C' = junk 0 1
  · simp [compareLoop, charAt, recordStep, UMap.find, UMap.insert, ← hj]
  · simp [compareLoop, charAt, recordStep, UMap.find, UMap.insert, hj]

/-- C18 fails on the code: with `minSearchLength = 1`, the genome `"AC"` and the
approximate lookup of `"ACG"` with `minimumLength = 1`, the candidate at 0 overruns the
genome and is compared with the empty `comp`. The hit returned for the genome has
length 1 when the byte past the terminator is not `'C'`, although `f[0..2)` equals the
genome's `[0..2)` (the length is not maximal), and length 3 when the two bytes are `'C'`
and `'G'`, beyond the genome's length 2. -/
theorem overrun_hit_length (junk : Nat → Nat → Char) :
    "ACG".toList.take 2 = pairGenome.genome.take 2 ∧ pairGenome.length = 2 ∧
    findGenomesWithThisDNA (build 1 [pairGenome]) junk "ACG".toList 1 false =
      some (true, [⟨"G".toList,
        if 'C' = junk 0 1 then (if 'G' = junk 0 2 then 3 else 2) else 1, 0⟩]) := by
  have hc : (build 1 [pairGenome]).trie.find
      (searchKey (build 1 [pairGenome]) "ACG".toList) false = [⟨"G".toList, 2, 0⟩] := by
    decide
  refine ⟨by decide, by decide, ?_⟩
  have hl : (build 1 [pairGenome]).genomes.find "G".toList true = [pairGenome] := by
    decide
  have hx : (pairGenome.extract 0 ("ACG".toList.length : Int) []).2 = [] := by decide
  rw [findGenomes_general _ _ _ _ _ (fun c h => lookup_found 1 [pairGenome] _ false c h),
    if_neg (by decide), hc]
  simp only [hitsOver, List.enum, List.enumFrom, List.foldl_cons, List.foldl_nil, scoreOf,
    hl, List.head?_cons, confirm, hx]
  by_cases hj : 'C' = junk 0 1
  · by_cases hj2 : 'G' = junk 0 2
    · simp [compareLoop, charAt, recordStep, UMap.find, UMap.insert, ← hj, ← hj2]
    · simp [compareLoop, charAt, recordStep, UMap.find, UMap.insert, ← hj, hj2]
  · simp [compareLoop, charAt, recordStep, UMap.find, UMap.insert, hj]

/-- C17: on an index with `minSearchLength ≥ 1` built by `addGenome`, every call of
`findRelatedGenomes` is defined and, with exact arithmetic, every returned
`percentMatch` `p` satisfies `0 < p ≤ 100`: the lookup of a query fragment returns at
most one hit per genome name, so a hit count never exceeds `numFragments`. -/
theorem related_percent_bounds (k : Int) (hk : 1 ≤ k) (gs : List Genome) (junk : Nat → Nat → Nat → Char)
    (query : Genome) (L : Int) (exactMatchOnly : Bool) (t : ℚ) :
    ∃ ok res, findRelatedGenomes (build k gs) junk query L exactMatchOnly t =
        some (ok, res) ∧
      (∀ i, (namesOf (build k gs) junk query L exactMatchOnly i).Nodup) ∧
      (∀ name, hitCount (build k gs) junk query L.toNat exactMatchOnly name ≤
        query.length / L.toNat) ∧
      ∀ r ∈ res, 0 < r.percentMatch ∧ r.percentMatch ≤ 100 := by
  have hcount : ∀ name, hitCount (build k gs) junk query L.toNat exactMatchOnly name ≤
      query.length / L.toNat := by
    intro name
    unfold hitCount
    exact le_trans (List.countP_le_length _) (by simp)
  by_cases hL : L < k
  · refine ⟨false, [], ?_, namesOf_nodup k hk gs junk query L exactMatchOnly, hcount, by simp⟩
    simp [findRelatedGenomes, minimumSearchLength, build_minSearchLen, hL]
  · obtain ⟨n, rfl⟩ : ∃ n : Nat, L = (n : Int) := ⟨L.toNat, by omega⟩
    obtain ⟨recorder, hres, _, hm⟩ :=
      related_build k hk gs junk query n (by omega) exactMatchOnly t
    refine ⟨_, _, hres, namesOf_nodup k hk gs junk query _ exactMatchOnly, hcount, ?_⟩
    intro r hr
    rw [(List.perm_insertionSort _ _).mem_iff, mem_keepRelated] at hr
    obtain ⟨c, hc, _, hp⟩ := hr
    obtain ⟨hc1, hc2⟩ := (hm _ _).1 hc
    have hle : c ≤ query.length / n := by
      have := hcount r.genomeName
      rw [Int.toNat_ofNat] at this
      rw [hc1]; exact this
    have hnpos : (0 : ℚ) < ((query.length / n : Nat) : ℚ) := by
      have : 0 < query.length / n := by omega
      exact_mod_cast this
    have hcpos : (0 : ℚ) < (c : ℚ) := by exact_mod_cast hc2
    have hcle : (c : ℚ) ≤ ((query.length / n : Nat) : ℚ) := by exact_mod_cast hle
    rw [hp, Int.cast_natCast]
    constructor
    · exact mul_pos (div_pos hcpos hnpos) (by norm_num)
    · have : (c : ℚ) / ((query.length / n : Nat) : ℚ) ≤ 1 := (div_le_one hnpos).2 hcle
      linarith

/-- C17 at the scenario: genome `A` as the query, in fragments of length 4, threshold 50. -/
theorem related_percent_bounds_witness :
    (1 : Int) ≤ 4 ∧
    ∃ ok res, findRelatedGenomes (build 4 [scenarioA, scenarioB]) scenarioJunks scenarioA 4
        true 50 = some (ok, res) ∧
      (∀ i, (namesOf (build 4 [scenarioA, scenarioB]) scenarioJunks scenarioA 4 true i).Nodup) ∧
      (∀ name, hitCount (build 4 [scenarioA, scenarioB]) scenarioJunks scenarioA
        (4 : Int).toNat true name ≤ scenarioA.length / (4 : Int).toNat) ∧
      ∀ r ∈ res, 0 < r.percentMatch ∧ r.percentMatch ≤ 100 :=
  ⟨by decide,
    related_percent_bounds 4 (by decide) [scenarioA, scenarioB] scenarioJunks scenarioA 4
      true 50⟩

/-- C15 fails on the code: with `minSearchLength = 1`, `D` the genomes `G2 = "A"` and
`G1 = "ACG"` (distinct names) and the approximate lookup of `"ACG"` with
`minimumLength = 3`, the index with `D` added once returns the hit of `G1` only. With
`D` added twice the candidate list is `G2, G1, G2, G1`; the third candidate overruns
`G2`, its `comp` is empty, and past the terminator lie the bytes `C`, `G` that the
`comp` of the round before (`"ACG"`) left there, so the comparison confirms length 3
and `G2` is returned as well. -/
theorem add_twice_stale_hit :
    ([staleShort, staleLong].map Genome.name).Nodup ∧
    (build 1 ([staleShort, staleLong] ++ [staleShort, staleLong])).trie.find
      "A".toList false =
      [⟨"G2".toList, 1, 0⟩, ⟨"G1".toList, 3, 0⟩, ⟨"G2".toList, 1, 0⟩, ⟨"G1".toList, 3, 0⟩] ∧
    findGenomesWithThisDNA (build 1 [staleShort, staleLong]) staleJunk "ACG".toList 3
      false = some (true, [⟨"G1".toList, 3, 0⟩]) ∧
    findGenomesWithThisDNA
      ([staleShort, staleLong].foldl addGenome (build 1 [staleShort, staleLong]))
      staleJunk "ACG".toList 3 false =
      some (true, [⟨"G1".toList, 3, 0⟩, ⟨"G2".toList, 3, 0⟩]) := by
  decide

end GenomeMatcherImpl

end GenomeAnalyzer
